import Mathlib

/-
Verification of the blockwise / ring / striped attention kernels of
src/bpt.py (repository exists-forall/striped_attention).

Modelling conventions used throughout this development:

* Tensors of shape (batch, length, heads, head_dim) are embedded as total
  index functions `Nat → Nat → Nat → Nat → F`; claims quantify over the
  in-range indices.  Shapes are passed separately where the code needs them
  (chunk counts, head_dim for contractions).
* Floating point arithmetic is embedded as exact arithmetic in an arbitrary
  `LinearOrderedField F`.  The exponential `jnp.exp` is an abstract parameter
  `E : F → F`; the theorems that need its defining properties assume
  `∀ x y, E (x + y) = E x * E y` (so that the streaming-softmax max-shift
  algebra is available) and `∀ x, 0 < E x`.  Instantiating `F := ℝ`,
  `E := Real.exp` recovers the intended reading; instantiating `F := ℚ`,
  `E := fun _ => 1` gives an admissible executable model used by witnesses.
* `jnp.sqrt(dim_per_head)` is the abstract parameter `scale : F`.
* `jnp.finfo(dtype).min` (the most negative finite value of the working
  dtype, used by the causal mask) is the abstract parameter `negMin : F`.
* The `-jnp.inf` initial value of the running maximum is represented by
  `Option F` with `none` standing for minus infinity; the correction factor
  `exp(-inf - M)` is literally `0`, which is what float arithmetic produces.
* `jax.random.split` followed by `jax.random.bernoulli` is abstracted into a
  parameter `bern : R → DropMask` over an abstract key type `R`.
* dtype casts (`float32_logits`, `.astype`) are identities in exact
  arithmetic and are dropped.
* `lax.scan` over stacked tile arrays becomes a `List.foldl` over tile
  indices; since every tensor update of the scanned code is pointwise in
  (batch, head, query-position), the carry is represented per row by the
  structure `Carry` below, and the whole-array carry is the corresponding
  index function.
* `lax.ppermute` with the rotate-by-one permutation becomes re-indexing of
  the per-rank family of local shards, see `ringStep`.
* `lax.dynamic_slice` is modelled as offset indexing (the in-range,
  non-broadcast case; no claim exercises the clamped out-of-range case).
-/

namespace BPT

/-- The causal_layout values used by src/bpt.py: Python `None`, the string
normal, and the string striped. -/
inductive CausalLayout where
  | none
  | normal
  | striped
deriving DecidableEq

/-- A (batch, position, head, head_dim) tensor as an index function. -/
abbrev Tensor4 (F : Type) := ℕ → ℕ → ℕ → ℕ → F

/-- A boolean dropout mask over (batch, head, query position, key position). -/
abbrev DropMask := ℕ → ℕ → ℕ → ℕ → Bool

/-- Per-row streaming-softmax accumulator: the numerator row (indexed by
head_dim), the denominator scalar and the running maximum.  `m = none` is the
`-inf` initial value of `prev_max_score`. -/
structure Carry (F : Type) where
  num : ℕ → F
  den : F
  m : Option F

attribute [ext] Carry

/-- Fold step of a running maximum that starts at minus infinity. -/
def omax {F : Type} [LinearOrder F] : Option F → F → Option F
  | Option.none, x => some x
  | Option.some m, x => some (max m x)

/-- The all-zero accumulator with running maximum `-inf`: the `init` values
of the forward scans (bpt.py lines 32-33, 62 and 403-407). -/
def zeroCarry (F : Type) [LinearOrderedField F] : Carry F :=
  ⟨fun _ => 0, 0, Option.none⟩

/-- Row-wise embedding of one non-skipped iteration of `scan_kv_block`
(bpt.py lines 152-166 and 370-388): `w` maps a key position to its biased
attention weight for this query row, `vv` is the value tensor row slice, and
`t` is the key tile index.  Computes the new running maximum, the correction
factor `exp(prev_max - new_max)` (zero when the previous maximum was `-inf`)
and the rescaled numerator/denominator updates. -/
def rowStep {F : Type} [LinearOrderedField F] (E : F → F) (kcs : ℕ)
    (w : ℕ → F) (vv : ℕ → ℕ → F) (c : Carry F) (t : ℕ) : Carry F :=
  match (List.range kcs).foldl (fun o j => omax o (w (t * kcs + j))) c.m with
  | Option.none => c
  | Option.some M =>
    let corr : F :=
      match c.m with
      | Option.none => 0
      | Option.some m0 => E (m0 - M)
    ⟨fun d => c.num d * corr + ∑ j ∈ Finset.range kcs, E (w (t * kcs + j) - M) * vv (t * kcs + j) d,
     c.den * corr + ∑ j ∈ Finset.range kcs, E (w (t * kcs + j) - M),
     some M⟩

/-- Row-wise embedding of the inner key/value scan with its skip rule
(`lax.scan` over `skip_upper_half`, bpt.py lines 182-192 and 390-410): fold
the key tiles `ts`, skipping a tile exactly when `skip` holds. -/
def rowScan {F : Type} [LinearOrderedField F] (E : F → F) (kcs : ℕ)
    (w : ℕ → F) (vv : ℕ → ℕ → F) (skip : ℕ → Bool) (c : Carry F) (ts : List ℕ) : Carry F :=
  ts.foldl (fun c t => if skip t then c else rowStep E kcs w vv c t) c

/-- The `skip_block` predicate of `_blockwise_attention_fwd.skip_upper_half`
(bpt.py lines 168-181), at global tile indices `q_idx`, `k_idx` (the code
passes `q_chunk_idx_start + q_chunk_idx` and the code positions are
`q_lo = q_idx * query_chunk_size` etc., reduced modulo `block_size` for the
striped layout). -/
def skip_block_fwd (causal_layout : CausalLayout)
    (query_chunk_size key_chunk_size block_size : ℕ) (q_idx k_idx : ℕ) : Bool :=
  match causal_layout with
  | CausalLayout.none => false
  | CausalLayout.normal =>
      decide (q_idx * query_chunk_size + query_chunk_size ≤ k_idx * key_chunk_size)
  | CausalLayout.striped =>
      decide ((q_idx * query_chunk_size) % block_size + query_chunk_size
                ≤ (k_idx * key_chunk_size) % block_size)

/-- The `skip_block` predicate of `_blockwise_attention_bwd.skip_upper_half`
(bpt.py lines 263-276); textually identical to the forward one. -/
def skip_block_bwd (causal_layout : CausalLayout)
    (query_chunk_size key_chunk_size block_size : ℕ) (q_idx k_idx : ℕ) : Bool :=
  match causal_layout with
  | CausalLayout.none => false
  | CausalLayout.normal =>
      decide (q_idx * query_chunk_size + query_chunk_size ≤ k_idx * key_chunk_size)
  | CausalLayout.striped =>
      decide ((q_idx * query_chunk_size) % block_size + query_chunk_size
                ≤ (k_idx * key_chunk_size) % block_size)

/-- The skip predicate of `blockwise_attn.skip_upper_half` (bpt.py lines
390-401): skip iff `causal` and `query_chunk_idx < key_chunk_idx`. -/
def skip_block_attn (causal : Bool) (query_chunk_idx key_chunk_idx : ℕ) : Bool :=
  causal && decide (query_chunk_idx < key_chunk_idx)

/-- The dropout-mask computation repeated at bpt.py lines 140-144, 233-237
and 354-358: when not deterministic and `attn_pdrop > 0`, draw a Bernoulli
mask over the whole local sequence from the rng key, else no mask.
`bern` abstracts `jax.random.split` plus `jax.random.bernoulli`. -/
def attn_dropout_of {F : Type} [LinearOrderedField F] {R : Type}
    (deterministic : Bool) (attn_pdrop : F) (bern : R → DropMask) (dropout_rng : R) :
    Option DropMask :=
  if deterministic = false ∧ 0 < attn_pdrop then some (bern dropout_rng) else none

/-- Embedding of `_chunk_attention_bias` (bpt.py lines 418-467), producing
the additive bias value at batch `b`, head `h`, in-tile query row `i` and
in-tile key column `j` for the tile pair (`query_chunk_idx`,
`key_chunk_idx`).  `negMin` stands for `jnp.finfo(dtype).min`; the iota
comparisons are in ℤ exactly as the int32 code computes them. -/
def _chunk_attention_bias {F : Type} [LinearOrderedField F]
    (query_chunk_size key_chunk_size : ℕ) (block_size : Option ℕ)
    (bias : Option (Tensor4 F)) (deterministic : Bool)
    (attn_dropout : Option DropMask) (attn_pdrop : F)
    (causal_layout : CausalLayout) (negMin : F)
    (query_chunk_idx key_chunk_idx : ℕ) : ℕ → ℕ → ℕ → ℕ → F :=
  fun b h i j =>
    let query_offset := query_chunk_idx * query_chunk_size
    let key_offset := key_chunk_idx * key_chunk_size
    let userBias : F :=
      match bias with
      | Option.none => 0
      | Option.some bf => bf b h (query_offset + i) (key_offset + j)
    let causalBias : F :=
      match causal_layout with
      | CausalLayout.none => 0
      | CausalLayout.normal =>
          if (i : ℤ) + ((query_offset : ℤ) - (key_offset : ℤ)) < (j : ℤ) then negMin else 0
      | CausalLayout.striped =>
          let B := block_size.getD 0
          let query_block_idx := query_offset / B
          let key_block_idx := key_offset / B
          let query_offset_in_block := query_offset % B
          let key_offset_in_block := key_offset % B
          let exclude_diagonal : ℤ := if query_block_idx < key_block_idx then 1 else 0
          if (i : ℤ) + ((query_offset_in_block : ℤ) - (key_offset_in_block : ℤ) - exclude_diagonal)
               < (j : ℤ)
          then negMin else 0
    let dropBias : F :=
      if deterministic = false ∧ 0 < attn_pdrop then
        match attn_dropout with
        | Option.none => 0
        | Option.some mask =>
            if mask b h (query_offset + i) (key_offset + j) then negMin else 0
      else 0
    userBias + causalBias + dropBias

/-- Embedding of `permute_tokens` (bpt.py lines 8-12): for the striped
layout, `rearrange(tokens, b (n d) -> b (d n))` with `d = num_devices` and
`n = seqLen / num_devices`; otherwise the identity.  The trailing axes of
the token tensor are absorbed into `α`. -/
def permute_tokens {α : Type} (attention_type : CausalLayout)
    (tokens : ℕ → ℕ → α) (seqLen num_devices : ℕ) : ℕ → ℕ → α :=
  match attention_type with
  | CausalLayout.striped =>
      fun b p => tokens b ((p % (seqLen / num_devices)) * num_devices + p / (seqLen / num_devices))
  | _ => tokens

/-- Embedding of `unpermute_outputs` (bpt.py lines 14-18): the inverse
rearrangement `b (d n) -> b (n d)` for the striped layout, else identity. -/
def unpermute_outputs {α : Type} (attention_type : CausalLayout)
    (outputs : ℕ → ℕ → α) (seqLen num_devices : ℕ) : ℕ → ℕ → α :=
  match attention_type with
  | CausalLayout.striped =>
      fun b p => outputs b ((p % num_devices) * (seqLen / num_devices) + p / num_devices)
  | _ => outputs

/-- Embedding of `blockwise_ffn` (bpt.py lines 304-321).  After
`rearrange(inputs, b (c n) d -> b c n d, c=chunk_size)` with
`n = seqLen / chunk_size`, the scan runs over axis `n` (axis
`inputs.ndim - 2`), so scan step `t` applies `remat_ffn` to the slice
holding positions `c * n + t` for `c < chunk_size`; the result is
rearranged back. -/
def blockwise_ffn {α : Type} (remat_ffn : (ℕ → ℕ → ℕ → α) → (ℕ → ℕ → ℕ → α))
    (inputs : ℕ → ℕ → ℕ → α) (seqLen chunk_size : ℕ) : ℕ → ℕ → ℕ → α :=
  let n := seqLen / chunk_size
  fun b p d => remat_ffn (fun b2 c d2 => inputs b2 (c * n + p % n) d2) b (p / n) d

/-- The contiguous-chunk reading of the specification of `blockwise_ffn`
(spec sections 4.7 and glossary): split the length axis into consecutive
chunks of `chunk_size` positions, apply the function to each chunk
independently, concatenate in original order.  This definition follows the
words of the spec and is compared against `blockwise_ffn` above. -/
def blockwise_ffn_contiguous {α : Type} (remat_ffn : (ℕ → ℕ → ℕ → α) → (ℕ → ℕ → ℕ → α))
    (inputs : ℕ → ℕ → ℕ → α) (chunk_size : ℕ) : ℕ → ℕ → ℕ → α :=
  fun b p d =>
    remat_ffn (fun b2 c d2 => inputs b2 ((p / chunk_size) * chunk_size + c) d2) b (p % chunk_size) d

/-- Embedding of the single-device entry point `blockwise_attn`
(bpt.py lines 324-416).  The query is pre-divided by `scale`
(`query / jnp.sqrt(dim_per_head)`, line 332); the causal layout passed to
`_chunk_attention_bias` is normal when `causal` else none, with
`block_size = None` (line 360-363); the skip rule is
`query_chunk_idx < key_chunk_idx` (lines 390-401); the init carry is zeros
with `-inf` maximum (lines 403-407); the output is `numerator/denominator`.
`D` is head_dim, `kv_len` the key length. -/
def blockwise_attn {F : Type} [LinearOrderedField F] {R : Type}
    (E : F → F) (scale negMin : F) (D kv_len : ℕ)
    (query key value : Tensor4 F) (bias : Option (Tensor4 F))
    (deterministic : Bool) (dropout_rng : R) (bern : R → DropMask)
    (attn_pdrop : F) (causal : Bool) (query_chunk_size key_chunk_size : ℕ) : Tensor4 F :=
  let num_kv := kv_len / key_chunk_size
  let attn_dropout := attn_dropout_of deterministic attn_pdrop bern dropout_rng
  let layout : CausalLayout := if causal then CausalLayout.normal else CausalLayout.none
  fun b q h d =>
    let w : ℕ → F := fun kp =>
      (∑ dd ∈ Finset.range D, (query b q h dd / scale) * key b kp h dd)
        + _chunk_attention_bias query_chunk_size key_chunk_size Option.none bias deterministic
            attn_dropout attn_pdrop layout negMin (q / query_chunk_size) (kp / key_chunk_size)
            b h (q % query_chunk_size) (kp % key_chunk_size)
    let c := rowScan E key_chunk_size w (fun kp dd => value b kp h dd)
      (fun t => skip_block_attn causal (q / query_chunk_size) t)
      (zeroCarry F) (List.range num_kv)
    c.num d / c.den

/-- The naive dense reference: `softmax(Q Kᵀ / scale) V`, with softmax
computed through the abstract exponential `E`.  For `F := ℝ` and
`E := Real.exp` this is literally dense scaled-dot-product attention. -/
def attention_reference {F : Type} [LinearOrderedField F]
    (E : F → F) (scale : F) (D kv_len : ℕ) (query key value : Tensor4 F) : Tensor4 F :=
  fun b q h d =>
    let w : ℕ → F := fun kp =>
      (∑ dd ∈ Finset.range D, query b q h dd * key b kp h dd) / scale
    (∑ kp ∈ Finset.range kv_len, E (w kp) * value b kp h d)
      / (∑ kp ∈ Finset.range kv_len, E (w kp))

/-- Embedding of `_blockwise_attention_fwd` (bpt.py lines 117-203): fold the
local key/value tiles into the given carry, with global tile indices
`q_chunk_idx_start + local` and `k_chunk_idx_start + local` for the bias and
the skip rule.  The whole-array carry of the code is the index function
(batch, head, query position) → `Carry`; `num_kv` is `kv_len //
key_chunk_size` of the local shard and `D` is head_dim. -/
def _blockwise_attention_fwd {F : Type} [LinearOrderedField F] {R : Type}
    (E : F → F) (scale negMin : F) (D : ℕ)
    (q k v : Tensor4 F) (carry : ℕ → ℕ → ℕ → Carry F)
    (q_chunk_idx_start k_chunk_idx_start : ℕ)
    (bias : Option (Tensor4 F)) (causal_layout : CausalLayout)
    (query_chunk_size key_chunk_size block_size : ℕ)
    (deterministic : Bool) (dropout_rng : R) (bern : R → DropMask) (attn_pdrop : F)
    (num_kv : ℕ) : ℕ → ℕ → ℕ → Carry F :=
  let attn_dropout := attn_dropout_of deterministic attn_pdrop bern dropout_rng
  fun b h qp =>
    let w : ℕ → F := fun kp =>
      (∑ dd ∈ Finset.range D, q b qp h dd * k b kp h dd) / scale
        + _chunk_attention_bias query_chunk_size key_chunk_size (some block_size) bias
            deterministic attn_dropout attn_pdrop causal_layout negMin
            (q_chunk_idx_start + qp / query_chunk_size) (k_chunk_idx_start + kp / key_chunk_size)
            b h (qp % query_chunk_size) (kp % key_chunk_size)
    rowScan E key_chunk_size w (fun kp dd => v b kp h dd)
      (fun t => skip_block_fwd causal_layout query_chunk_size key_chunk_size block_size
        (q_chunk_idx_start + qp / query_chunk_size) (k_chunk_idx_start + t))
      (carry b h qp) (List.range num_kv)

/-- Output extraction `numerator / denominator` shared by bpt.py line 65 and
line 193: divide the accumulated numerator row by the denominator. -/
def carryOut {F : Type} [LinearOrderedField F] (c : Carry F) (d : ℕ) : F :=
  c.num d / c.den

/-- Single-device blockwise attention over a full (unsplit) sequence: run
`_blockwise_attention_fwd` once from the zero carry with tile offsets 0 and
read off `numerator / denominator`. -/
def blockwise_fwd_output {F : Type} [LinearOrderedField F] {R : Type}
    (E : F → F) (scale negMin : F) (D : ℕ)
    (q k v : Tensor4 F) (bias : Option (Tensor4 F)) (causal_layout : CausalLayout)
    (query_chunk_size key_chunk_size block_size : ℕ)
    (deterministic : Bool) (dropout_rng : R) (bern : R → DropMask) (attn_pdrop : F)
    (num_kv : ℕ) : Tensor4 F :=
  fun b qp h d =>
    carryOut (_blockwise_attention_fwd E scale negMin D q k v (fun _ _ _ => zeroCarry F)
      0 0 bias causal_layout query_chunk_size key_chunk_size block_size
      deterministic dropout_rng bern attn_pdrop num_kv b h qp) d

/-- The logical key-block identity held by rank `r` at ring hop `idx`:
`(lax.axis_index(axis_name) - idx) % axis_size` (bpt.py line 56), computed in
ℤ and returned as a ℕ below `P`. -/
def kBlockIdx (P r idx : ℕ) : ℕ := (((r : ℤ) - (idx : ℤ)) % (P : ℤ)).toNat

/-- Ring state: per-rank streaming carries and the per-rank local key/value
shards that `lax.ppermute` rotates between hops.  Local tensors are indexed
(batch, local position, head, head_dim). -/
structure RingSt (F : Type) where
  carry : ℕ → ℕ → ℕ → ℕ → Carry F
  kk : ℕ → Tensor4 F
  vv : ℕ → Tensor4 F

/-- One iteration of `scan_kv_block` of `_ring_attention_fwd` (bpt.py lines
38-61) for every rank simultaneously: each rank `r` folds its current
key/value shard into its carry via `_blockwise_attention_fwd` with
query tile offset `r * (block_size // query_chunk_size)` and key tile offset
`k_block_idx * (block_size // key_chunk_size)`, slicing the global bias to
the key range of the held block; then key and value rotate one step around
the ring (`ppermute` with `i ↦ i+1 mod P`), so after the step rank `r` holds
what rank `(r + P - 1) % P` held.  `L` is the per-rank block size
(`q_len` of the shard), `q` the global query tensor. -/
def ringStep {F : Type} [LinearOrderedField F] {R : Type}
    (E : F → F) (scale negMin : F) (D P L : ℕ)
    (causal_layout : CausalLayout) (query_chunk_size key_chunk_size : ℕ)
    (attn_bias : Option (Tensor4 F))
    (deterministic : Bool) (dropout_rng : R) (bern : R → DropMask) (attn_pdrop : F)
    (q : Tensor4 F) (st : RingSt F) (idx : ℕ) : RingSt F :=
  { carry := fun r =>
      _blockwise_attention_fwd E scale negMin D
        (fun b lq h d => q b (r * L + lq) h d) (st.kk r) (st.vv r) (st.carry r)
        (r * (L / query_chunk_size)) (kBlockIdx P r idx * (L / key_chunk_size))
        (Option.map (fun bf => fun b h i j => bf b h i (kBlockIdx P r idx * L + j)) attn_bias)
        causal_layout query_chunk_size key_chunk_size L
        deterministic dropout_rng bern attn_pdrop (L / key_chunk_size),
    kk := fun r => st.kk ((r + P - 1) % P),
    vv := fun r => st.vv ((r + P - 1) % P) }

/-- The full hop scan of `_ring_attention_fwd` (bpt.py lines 62-64): start
from the zero carry with `-inf` maxima and the natural sharding of key and
value (rank `r` holds global positions `r*L .. r*L + L - 1`), then run
`axis_size` hops. -/
def ring_scan {F : Type} [LinearOrderedField F] {R : Type}
    (E : F → F) (scale negMin : F) (D P L : ℕ)
    (causal_layout : CausalLayout) (query_chunk_size key_chunk_size : ℕ)
    (attn_bias : Option (Tensor4 F))
    (deterministic : Bool) (dropout_rng : R) (bern : R → DropMask) (attn_pdrop : F)
    (q k v : Tensor4 F) : RingSt F :=
  let st0 : RingSt F :=
    { carry := fun _ _ _ _ => zeroCarry F,
      kk := fun r => fun b lk h d => k b (r * L + lk) h d,
      vv := fun r => fun b lk h d => v b (r * L + lk) h d }
  (List.range P).foldl
    (ringStep E scale negMin D P L causal_layout query_chunk_size key_chunk_size attn_bias
      deterministic dropout_rng bern attn_pdrop q) st0

/-- The per-rank output of `ring_attention` (bpt.py lines 65-66 and
110-113): `numerator / denominator` of the final carry.  Index order:
rank, batch, local query position is folded into the row lookup. -/
def ring_attention {F : Type} [LinearOrderedField F] {R : Type}
    (E : F → F) (scale negMin : F) (D P L : ℕ)
    (causal_layout : CausalLayout) (query_chunk_size key_chunk_size : ℕ)
    (attn_bias : Option (Tensor4 F))
    (deterministic : Bool) (dropout_rng : R) (bern : R → DropMask) (attn_pdrop : F)
    (q k v : Tensor4 F) : ℕ → Tensor4 F :=
  fun r => fun b lq h d =>
    carryOut ((ring_scan E scale negMin D P L causal_layout query_chunk_size key_chunk_size
      attn_bias deterministic dropout_rng bern attn_pdrop q k v).carry r b h lq) d

/-- `dl_part` of `_blockwise_attention_bwd.scan_attention` (bpt.py line
245): the per-(batch, head, query position) contraction of the upstream
gradient with the forward output. -/
def dl_part {F : Type} [LinearOrderedField F] (D : ℕ) (g output : Tensor4 F) :
    ℕ → ℕ → ℕ → F :=
  fun b h qp => ∑ dd ∈ Finset.range D, g b qp h dd * output b qp h dd

/-- Embedding of `_blockwise_attention_bwd.scan_kv_block` (bpt.py lines
246-261) at one (batch, head) slice and one (query tile `qt`, key tile `t`)
pair.  `w` gives the biased attention weight at global positions, `qRow`,
`kRow`, `vRow`, `gRow`, `outRow` the per-(b,h) slices (position, head_dim),
`den`/`mx` the saved forward denominator and running maximum per query
position.  Returns the updated `dq_chunk` and the emitted `dk`/`dv` tiles
indexed by (in-tile key column, head_dim). -/
def bwd_scan_kv_block {F : Type} [LinearOrderedField F]
    (E : F → F) (scale : F) (D query_chunk_size key_chunk_size : ℕ)
    (w : ℕ → ℕ → F) (qRow kRow vRow gRow outRow : ℕ → ℕ → F) (den mx : ℕ → F)
    (qt t : ℕ) (dq_chunk : ℕ → ℕ → F) :
    (ℕ → ℕ → F) × (ℕ → ℕ → F) × (ℕ → ℕ → F) :=
  let expw : ℕ → ℕ → F := fun i j =>
    E (w (qt * query_chunk_size + i) (t * key_chunk_size + j) - mx (qt * query_chunk_size + i))
      / den (qt * query_chunk_size + i)
  let dlp : ℕ → F := fun i =>
    ∑ dd ∈ Finset.range D, gRow (qt * query_chunk_size + i) dd * outRow (qt * query_chunk_size + i) dd
  let ds : ℕ → ℕ → F := fun i j =>
    ∑ dd ∈ Finset.range D, gRow (qt * query_chunk_size + i) dd * vRow (t * key_chunk_size + j) dd
  let dl : ℕ → ℕ → F := fun i j => (ds i j - dlp i) * expw i j
  (fun i dd => dq_chunk i dd
      + (∑ j ∈ Finset.range key_chunk_size, dl i j * kRow (t * key_chunk_size + j) dd) / scale,
   fun j dd => (∑ i ∈ Finset.range query_chunk_size, qRow (qt * query_chunk_size + i) dd * dl i j)
      / scale,
   fun j dd => ∑ i ∈ Finset.range query_chunk_size, expw i j * gRow (qt * query_chunk_size + i) dd)

/-- Embedding of `_blockwise_attention_bwd.skip_upper_half` (bpt.py lines
263-285): when the skip predicate holds at the global tile pair, pass the
`dq` carry through unchanged and emit zero `dk`/`dv` tiles; otherwise run
`scan_kv_block`. -/
def bwd_skip_upper_half {F : Type} [LinearOrderedField F]
    (E : F → F) (scale : F) (D query_chunk_size key_chunk_size : ℕ)
    (causal_layout : CausalLayout) (block_size : ℕ)
    (q_chunk_idx_start k_chunk_idx_start : ℕ)
    (w : ℕ → ℕ → F) (qRow kRow vRow gRow outRow : ℕ → ℕ → F) (den mx : ℕ → F)
    (qt t : ℕ) (dq_chunk : ℕ → ℕ → F) :
    (ℕ → ℕ → F) × (ℕ → ℕ → F) × (ℕ → ℕ → F) :=
  if skip_block_bwd causal_layout query_chunk_size key_chunk_size block_size
       (q_chunk_idx_start + qt) (k_chunk_idx_start + t) then
    (dq_chunk, fun _ _ => 0, fun _ _ => 0)
  else
    bwd_scan_kv_block E scale D query_chunk_size key_chunk_size w qRow kRow vRow gRow outRow
      den mx qt t dq_chunk

/-- The `dq` carry of the inner backward scan: fold `skip_upper_half` over
the key tiles, keeping only the carried component (the emitted `dk`/`dv`
tiles are stacked separately by `lax.scan` and accumulated by the outer
scan). -/
def bwd_dq_scan {F : Type} [LinearOrderedField F]
    (E : F → F) (scale : F) (D query_chunk_size key_chunk_size : ℕ)
    (causal_layout : CausalLayout) (block_size : ℕ)
    (q_chunk_idx_start k_chunk_idx_start : ℕ)
    (w : ℕ → ℕ → F) (qRow kRow vRow gRow outRow : ℕ → ℕ → F) (den mx : ℕ → F)
    (qt : ℕ) (dq0 : ℕ → ℕ → F) (ts : List ℕ) : ℕ → ℕ → F :=
  ts.foldl
    (fun c t => (bwd_skip_upper_half E scale D query_chunk_size key_chunk_size causal_layout
      block_size q_chunk_idx_start k_chunk_idx_start w qRow kRow vRow gRow outRow den mx
      qt t c).1) dq0

/-- Embedding of `_blockwise_attention_bwd` (bpt.py lines 205-298).  The
outer scan over query tiles accumulates `dk`/`dv` via
`(dk + dk_part, dv + dv_part)` where the parts are the stacked per-pair
emissions of `skip_upper_half`, and threads each query tile `dq` chunk
through the inner scan.  Inputs `dq0`/`dk0`/`dv0` are the incoming gradient
carries, `output` the forward output, `denominator`/`max_score` the saved
forward statistics indexed (batch, head, position). -/
def _blockwise_attention_bwd {F : Type} [LinearOrderedField F] {R : Type}
    (E : F → F) (scale negMin : F) (D : ℕ)
    (q k v g : Tensor4 F) (dq0 dk0 dv0 output : Tensor4 F)
    (denominator max_score : ℕ → ℕ → ℕ → F)
    (q_chunk_idx_start k_chunk_idx_start : ℕ)
    (bias : Option (Tensor4 F)) (causal_layout : CausalLayout)
    (query_chunk_size key_chunk_size block_size : ℕ)
    (deterministic : Bool) (dropout_rng : R) (bern : R → DropMask) (attn_pdrop : F)
    (num_q num_kv : ℕ) : Tensor4 F × Tensor4 F × Tensor4 F :=
  let attn_dropout := attn_dropout_of deterministic attn_pdrop bern dropout_rng
  let w : ℕ → ℕ → ℕ → ℕ → F := fun b h qp kp =>
    (∑ dd ∈ Finset.range D, q b qp h dd * k b kp h dd) / scale
      + _chunk_attention_bias query_chunk_size key_chunk_size (some block_size) bias
          deterministic attn_dropout attn_pdrop causal_layout negMin
          (q_chunk_idx_start + qp / query_chunk_size) (k_chunk_idx_start + kp / key_chunk_size)
          b h (qp % query_chunk_size) (kp % key_chunk_size)
  (fun b qp h d =>
      bwd_dq_scan E scale D query_chunk_size key_chunk_size causal_layout block_size
        q_chunk_idx_start k_chunk_idx_start (w b h)
        (fun p dd => q b p h dd) (fun p dd => k b p h dd) (fun p dd => v b p h dd)
        (fun p dd => g b p h dd) (fun p dd => output b p h dd)
        (fun p => denominator b h p) (fun p => max_score b h p)
        (qp / query_chunk_size)
        (fun i dd => dq0 b ((qp / query_chunk_size) * query_chunk_size + i) h dd)
        (List.range num_kv) (qp % query_chunk_size) d,
   fun b kp h d => dk0 b kp h d
      + ∑ qt ∈ Finset.range num_q,
          (bwd_skip_upper_half E scale D query_chunk_size key_chunk_size causal_layout
            block_size q_chunk_idx_start k_chunk_idx_start (w b h)
            (fun p dd => q b p h dd) (fun p dd => k b p h dd) (fun p dd => v b p h dd)
            (fun p dd => g b p h dd) (fun p dd => output b p h dd)
            (fun p => denominator b h p) (fun p => max_score b h p)
            qt (kp / key_chunk_size) (fun _ _ => 0)).2.1 (kp % key_chunk_size) d,
   fun b kp h d => dv0 b kp h d
      + ∑ qt ∈ Finset.range num_q,
          (bwd_skip_upper_half E scale D query_chunk_size key_chunk_size causal_layout
            block_size q_chunk_idx_start k_chunk_idx_start (w b h)
            (fun p dd => q b p h dd) (fun p dd => k b p h dd) (fun p dd => v b p h dd)
            (fun p dd => g b p h dd) (fun p dd => output b p h dd)
            (fun p => denominator b h p) (fun p => max_score b h p)
            qt (kp / key_chunk_size) (fun _ _ => 0)).2.2 (kp % key_chunk_size) d)

/-- The causal rule of the contiguous layout at absolute positions: query
position `q` may attend to key position `k` iff `k ≤ q`. -/
def allowedNormal (q k : ℕ) : Bool := decide (k ≤ q)

/-- The attend-predicate encoded by the striped branch of
`_chunk_attention_bias`: with `ed = (query block < key block)`, query
position `q` (of a striped-global position) attends to `k` iff
`k % B ≤ q % B - ed`. -/
def allowedStriped (B q k : ℕ) : Bool :=
  if q / B < k / B then decide (k % B < q % B) else decide (k % B ≤ q % B)

/-- The minus-infinity idealization of masked attention: masked entries are
excluded from the softmax (the limit the float code realizes by adding
`finfo.min` and letting `exp` underflow to zero).  Used to state the part of
claim C3 that survives exact arithmetic. -/
def idealOut {F : Type} [LinearOrderedField F]
    (E : F → F) (scale : F) (D kv_len : ℕ) (allowed : ℕ → ℕ → Bool)
    (query key value : Tensor4 F) : Tensor4 F :=
  fun b qp h d =>
    let w : ℕ → F := fun kp =>
      (∑ dd ∈ Finset.range D, query b qp h dd * key b kp h dd) / scale
    (∑ kp ∈ (Finset.range kv_len).filter (fun kp => allowed qp kp = true),
        E (w kp) * value b kp h d)
      / (∑ kp ∈ (Finset.range kv_len).filter (fun kp => allowed qp kp = true), E (w kp))

/-- The global key positions covered by key tile `t`. -/
def tileKeys (kcs t : ℕ) : List ℕ := (List.range kcs).map (fun j => t * kcs + j)

/-- The key positions actually folded by `rowScan` over the tile list `ts`
with the given skip predicate. -/
def keysOf (kcs : ℕ) (skip : ℕ → Bool) (ts : List ℕ) : List ℕ :=
  (ts.filter (fun t => !(skip t))).flatMap (tileKeys kcs)

/-- The running maximum of the biased weights over a key list, starting at
minus infinity. -/
def maxKeys {F : Type} [LinearOrder F] (w : ℕ → F) (ks : List ℕ) : Option F :=
  ks.foldl (fun o p => omax o (w p)) Option.none

/-- Closed form of the streaming accumulator after folding exactly the key
positions `ks`: the running maximum is the maximum over `ks`, and numerator
and denominator are the max-shifted exponential sums. -/
def charCarry {F : Type} [LinearOrderedField F]
    (E : F → F) (w : ℕ → F) (vv : ℕ → ℕ → F) (ks : List ℕ) : Carry F :=
  match maxKeys w ks with
  | Option.none => zeroCarry F
  | Option.some M =>
    ⟨fun d => (ks.map (fun p => E (w p - M) * vv p d)).sum,
     (ks.map (fun p => E (w p - M))).sum,
     some M⟩

/-- The global key tile indices visited by rank `r` during the first `n`
ring hops: hop `idx` contributes the `numKv` tiles of the block
`kBlockIdx P r idx`. -/
def ringTiles (P numKv r n : ℕ) : List ℕ :=
  (List.range n).flatMap (fun idx => (List.range numKv).map (fun lt => kBlockIdx P r idx * numKv + lt))

/-- The biased attention weight of global query position `qg` against global
key position `kp`, as computed from global tile indices and in-tile
coordinates — the common weight function of every hop of the ring and of
the single-device full-sequence pass. -/
def globalWeight {F : Type} [LinearOrderedField F]
    (scale negMin : F) (D : ℕ) (q k : Tensor4 F)
    (bias : Option (Tensor4 F)) (causal_layout : CausalLayout)
    (query_chunk_size key_chunk_size block_size : ℕ)
    (deterministic : Bool) (attn_dropout : Option DropMask) (attn_pdrop : F)
    (b h qg : ℕ) : ℕ → F :=
  fun kp =>
    (∑ dd ∈ Finset.range D, q b qg h dd * k b kp h dd) / scale
      + _chunk_attention_bias query_chunk_size key_chunk_size (some block_size) bias
          deterministic attn_dropout attn_pdrop causal_layout negMin
          (qg / query_chunk_size) (kp / key_chunk_size)
          b h (qg % query_chunk_size) (kp % key_chunk_size)

/-- `permute_tokens` applied to a rank-4 tensor (the trailing head and
head_dim axes ride along). -/
def permute4 {F : Type} (attention_type : CausalLayout) (x : Tensor4 F)
    (seqLen num_devices : ℕ) : Tensor4 F :=
  fun b p h d =>
    permute_tokens attention_type (fun b2 p2 => fun h2 d2 => x b2 p2 h2 d2)
      seqLen num_devices b p h d

/-- `unpermute_outputs` applied to a rank-4 tensor. -/
def unpermute4 {F : Type} (attention_type : CausalLayout) (x : Tensor4 F)
    (seqLen num_devices : ℕ) : Tensor4 F :=
  fun b p h d =>
    unpermute_outputs attention_type (fun b2 p2 => fun h2 d2 => x b2 p2 h2 d2)
      seqLen num_devices b p h d

/-- The per-rank ring outputs gathered back into one global tensor: global
position `p` lives on rank `p / L` at local position `p % L`. -/
def ring_attention_full {F : Type} [LinearOrderedField F] {R : Type}
    (E : F → F) (scale negMin : F) (D P L : ℕ)
    (causal_layout : CausalLayout) (query_chunk_size key_chunk_size : ℕ)
    (attn_bias : Option (Tensor4 F))
    (deterministic : Bool) (dropout_rng : R) (bern : R → DropMask) (attn_pdrop : F)
    (q k v : Tensor4 F) : Tensor4 F :=
  fun b p h d =>
    ring_attention E scale negMin D P L causal_layout query_chunk_size key_chunk_size
      attn_bias deterministic dropout_rng bern attn_pdrop q k v (p / L) b (p % L) h d

/-! ### Characterization of the streaming fold -/

theorem listRangeMapSum {F : Type} [AddCommMonoid F] (n : ℕ) (f : ℕ → F) :
    ((List.range n).map f).sum = ∑ i ∈ Finset.range n, f i := by
  induction n with
  | zero => simp
  | succ n ih =>
      rw [List.range_succ, List.map_append, List.sum_append, Finset.sum_range_succ, ih]
      simp

theorem list_sum_map_mul {F : Type} [NonUnitalNonAssocSemiring F]
    (l : List ℕ) (f : ℕ → F) (a : F) :
    (l.map f).sum * a = (l.map (fun p => f p * a)).sum := by
  induction l with
  | nil => simp
  | cons x l ih => simp [add_mul, ih]

theorem omax_comm {F : Type} [LinearOrder F] (o : Option F) (a b : F) :
    omax (omax o a) b = omax (omax o b) a := by
  cases o <;> simp [omax, max_comm, max_left_comm, max_assoc]

theorem foldl_omax_eq_none_iff {F : Type} [LinearOrder F] (w : ℕ → F) (l : List ℕ) :
    ∀ o : Option F, l.foldl (fun o p => omax o (w p)) o = Option.none ↔
      (o = Option.none ∧ l = []) := by
  induction l with
  | nil => intro o; simp
  | cons x l ih =>
      intro o
      rw [List.foldl_cons, ih]
      cases o <;> simp [omax]

theorem maxKeys_eq_none_iff {F : Type} [LinearOrder F] (w : ℕ → F) (ks : List ℕ) :
    maxKeys w ks = Option.none ↔ ks = [] := by
  rw [maxKeys, foldl_omax_eq_none_iff]
  simp

theorem maxKeys_append {F : Type} [LinearOrder F] (w : ℕ → F) (l₁ l₂ : List ℕ) :
    maxKeys w (l₁ ++ l₂) = l₂.foldl (fun o p => omax o (w p)) (maxKeys w l₁) := by
  simp [maxKeys, List.foldl_append]

theorem charCarry_m {F : Type} [LinearOrderedField F]
    (E : F → F) (w : ℕ → F) (vv : ℕ → ℕ → F) (ks : List ℕ) :
    (charCarry E w vv ks).m = maxKeys w ks := by
  cases h : maxKeys w ks <;> simp [charCarry, h, zeroCarry]

theorem tileKeys_ne_nil (kcs t : ℕ) (hkcs : 0 < kcs) : tileKeys kcs t ≠ [] := by
  simp [tileKeys, List.range_eq_nil]
  omega

theorem tileKeys_map_sum {F : Type} [AddCommMonoid F] (kcs t : ℕ) (f : ℕ → F) :
    ((tileKeys kcs t).map f).sum = ∑ j ∈ Finset.range kcs, f (t * kcs + j) := by
  rw [tileKeys, List.map_map, listRangeMapSum]
  rfl

theorem keysOf_append_singleton (kcs : ℕ) (skip : ℕ → Bool) (ts : List ℕ) (t : ℕ) :
    keysOf kcs skip (ts ++ [t])
      = keysOf kcs skip ts ++ (if skip t then [] else tileKeys kcs t) := by
  cases h : skip t <;> simp [keysOf, List.filter_append, h]

theorem rowStep_charCarry {F : Type} [LinearOrderedField F] (E : F → F)
    (hE : ∀ x y, E (x + y) = E x * E y) (kcs : ℕ) (hkcs : 0 < kcs)
    (w : ℕ → F) (vv : ℕ → ℕ → F) (ks : List ℕ) (t : ℕ) :
    rowStep E kcs w vv (charCarry E w vv ks) t = charCarry E w vv (ks ++ tileKeys kcs t) := by
  have hfold : (List.range kcs).foldl (fun o j => omax o (w (t * kcs + j)))
      (charCarry E w vv ks).m = maxKeys w (ks ++ tileKeys kcs t) := by
    rw [charCarry_m, maxKeys_append, tileKeys, List.foldl_map]
  have hne : maxKeys w (ks ++ tileKeys kcs t) ≠ Option.none := by
    rw [Ne, maxKeys_eq_none_iff]
    intro h
    exact tileKeys_ne_nil kcs t hkcs (List.append_eq_nil.mp h).2
  obtain ⟨M₁, hM₁⟩ : ∃ M₁, maxKeys w (ks ++ tileKeys kcs t) = some M₁ := by
    cases h : maxKeys w (ks ++ tileKeys kcs t)
    · exact absurd h hne
    · exact ⟨_, rfl⟩
  rw [rowStep, hfold, hM₁]
  cases hks : maxKeys w ks with
  | none =>
      have hksnil : ks = [] := (maxKeys_eq_none_iff w ks).mp hks
      subst hksnil
      have hcz : charCarry E w vv ([] : List ℕ) = zeroCarry F := by
        simp [charCarry, maxKeys]
      have hM₂ : maxKeys w (tileKeys kcs t) = some M₁ := by
        simpa using hM₁
      have hmn : maxKeys w ([] : List ℕ) = Option.none := rfl
      refine Carry.ext ?_ ?_ ?_ <;>
        simp [hcz, charCarry, hmn, hM₂, zeroCarry, tileKeys_map_sum]
  | some M₀ =>
      have hcs : charCarry E w vv ks =
          ⟨fun d => (ks.map (fun p => E (w p - M₀) * vv p d)).sum,
           (ks.map (fun p => E (w p - M₀))).sum, some M₀⟩ := by
        simp [charCarry, hks]
      have hshift : ∀ p : ℕ, E (w p - M₀) * E (M₀ - M₁) = E (w p - M₁) := by
        intro p
        rw [← hE, sub_add_sub_cancel]
      have hmapnum : ∀ d : ℕ, List.map (fun p => E (w p - M₀) * vv p d * E (M₀ - M₁)) ks
          = List.map (fun p => E (w p - M₁) * vv p d) ks := by
        intro d
        apply List.map_congr_left
        intro p _
        rw [mul_right_comm, hshift]
      have hmapden : List.map (fun p => E (w p - M₀) * E (M₀ - M₁)) ks
          = List.map (fun p => E (w p - M₁)) ks := by
        apply List.map_congr_left
        intro p _
        rw [hshift]
      rw [hcs]
      simp only [charCarry, hM₁]
      refine Carry.ext ?_ ?_ ?_
      · funext d
        simp only [List.map_append, List.sum_append, tileKeys_map_sum]
        rw [list_sum_map_mul, hmapnum d]
      · simp only [List.map_append, List.sum_append, tileKeys_map_sum]
        rw [list_sum_map_mul, hmapden]
      · rfl

theorem rowScan_append_singleton {F : Type} [LinearOrderedField F] (E : F → F) (kcs : ℕ)
    (w : ℕ → F) (vv : ℕ → ℕ → F) (skip : ℕ → Bool) (c : Carry F) (ts : List ℕ) (t : ℕ) :
    rowScan E kcs w vv skip c (ts ++ [t])
      = if skip t then rowScan E kcs w vv skip c ts
        else rowStep E kcs w vv (rowScan E kcs w vv skip c ts) t := by
  rw [rowScan, List.foldl_append, List.foldl_cons, List.foldl_nil]
  rfl

theorem rowScan_charCarry {F : Type} [LinearOrderedField F] (E : F → F)
    (hE : ∀ x y, E (x + y) = E x * E y) (kcs : ℕ) (hkcs : 0 < kcs)
    (w : ℕ → F) (vv : ℕ → ℕ → F) (skip : ℕ → Bool) (ts : List ℕ) :
    rowScan E kcs w vv skip (zeroCarry F) ts = charCarry E w vv (keysOf kcs skip ts) := by
  induction ts using List.reverseRecOn with
  | nil => rfl
  | append_singleton ts t ih =>
      rw [rowScan_append_singleton, keysOf_append_singleton]
      cases h : skip t with
      | true => simp [h, ih]
      | false =>
          simp only [h, Bool.false_eq_true, if_false]
          rw [ih, rowStep_charCarry E hE kcs hkcs]

theorem charCarry_perm {F : Type} [LinearOrderedField F] (E : F → F)
    (w : ℕ → F) (vv : ℕ → ℕ → F) {ks₁ ks₂ : List ℕ} (h : ks₁.Perm ks₂) :
    charCarry E w vv ks₁ = charCarry E w vv ks₂ := by
  have hmax : maxKeys w ks₁ = maxKeys w ks₂ :=
    h.foldl_eq' (fun x _ y _ o => omax_comm o (w x) (w y)) Option.none
  rw [charCarry, charCarry, hmax]
  cases hm : maxKeys w ks₂ with
  | none => rfl
  | some M =>
      refine Carry.ext ?_ ?_ ?_
      · funext d
        exact (h.map (fun p => E (w p - M) * vv p d)).sum_eq
      · exact (h.map (fun p => E (w p - M))).sum_eq
      · rfl

/-! ### Small helper lemmas -/

theorem flatMap_tileKeys (kcs : ℕ) : ∀ n : ℕ,
    (List.range n).flatMap (tileKeys kcs) = List.range (n * kcs) := by
  intro n
  induction n with
  | zero => simp
  | succ n ih =>
      rw [List.range_succ, List.flatMap_append, ih]
      have : (n + 1) * kcs = n * kcs + kcs := by ring
      rw [this, List.range_add]
      simp [tileKeys]

theorem keysOf_all (kcs n : ℕ) :
    keysOf kcs (fun _ => false) (List.range n) = List.range (n * kcs) := by
  rw [keysOf]
  have : (List.range n).filter (fun t => !(false : Bool)) = List.range n := by
    simp
  rw [this, flatMap_tileKeys]

theorem attn_dropout_of_none {F : Type} [LinearOrderedField F] {R : Type}
    {deterministic : Bool} {attn_pdrop : F} (bern : R → DropMask) (rng : R)
    (h : deterministic = true ∨ attn_pdrop ≤ 0) :
    attn_dropout_of deterministic attn_pdrop bern rng = Option.none := by
  rw [attn_dropout_of, if_neg]
  rintro ⟨hdet, hp⟩
  rcases h with h | h
  · rw [h] at hdet
    simp at hdet
  · exact absurd hp (not_lt.mpr h)

/-! ### C6: permutation inverse law -/

/-- C6: for every tensor whose length axis is divisible by the device count,
`unpermute_outputs` inverts `permute_tokens`; for the none and normal
(contiguous) layouts both maps are the identity. -/
theorem permute_unpermute_inverse {α : Type} (attention_type : CausalLayout)
    (tokens : ℕ → ℕ → α) (seqLen num_devices : ℕ)
    (hdvd : num_devices ∣ seqLen) :
    (∀ b p, p < seqLen →
      unpermute_outputs attention_type
        (permute_tokens attention_type tokens seqLen num_devices) seqLen num_devices b p
        = tokens b p)
    ∧ (attention_type ≠ CausalLayout.striped →
        permute_tokens attention_type tokens seqLen num_devices = tokens
        ∧ unpermute_outputs attention_type tokens seqLen num_devices = tokens) := by
  constructor
  · intro b p hp
    cases attention_type with
    | none => rfl
    | normal => rfl
    | striped =>
        rcases Nat.eq_zero_or_pos num_devices with hd0 | hd
        · subst hd0
          obtain ⟨n, hn⟩ := hdvd
          simp at hn
          omega
        · obtain ⟨n, rfl⟩ := hdvd
          have hN : num_devices * n / num_devices = n := Nat.mul_div_cancel_left n hd
          have hn : 0 < n := by
            rcases Nat.eq_zero_or_pos n with h0 | h0
            · subst h0; simp at hp
            · exact h0
          have hpd : p / num_devices < n := by
            apply (Nat.div_lt_iff_lt_mul hd).mpr
            calc p < num_devices * n := hp
            _ = n * num_devices := by ring
          simp only [permute_tokens, unpermute_outputs, hN]
          have h1 : (p % num_devices * n + p / num_devices) % n = p / num_devices := by
            rw [mul_comm, Nat.mul_add_mod, Nat.mod_eq_of_lt hpd]
          have h2 : (p % num_devices * n + p / num_devices) / n = p % num_devices := by
            rw [mul_comm, Nat.mul_add_div hn, Nat.div_eq_of_lt hpd, add_zero]
          rw [h1, h2, mul_comm, Nat.div_add_mod]
  · intro hne
    cases attention_type with
    | none => exact ⟨rfl, rfl⟩
    | normal => exact ⟨rfl, rfl⟩
    | striped => exact absurd rfl hne

/-- Witness for C6 at a concrete instance. -/
theorem permute_unpermute_inverse_witness :
    (2 ∣ 4) ∧
    unpermute_outputs CausalLayout.striped
      (permute_tokens CausalLayout.striped (fun _ p => p + 10) 4 2) 4 2 0 1
      = (fun (_ p : ℕ) => p + 10) 0 1 :=
  ⟨by decide,
   (permute_unpermute_inverse CausalLayout.striped (fun _ p => p + 10) 4 2 (by decide)).1
     0 1 (by decide)⟩

/-! ### C8: contiguous causal bias entries -/

/-- C8: for the contiguous (normal) layout with no user bias and no dropout
mask, the bias tile entry at in-tile coordinates (i, j) equals the most
negative finite value `negMin` exactly when the global key position
`key_chunk_idx * key_chunk_size + j` exceeds the global query position
`query_chunk_idx * query_chunk_size + i`, and zero otherwise.  (In this
exact-arithmetic embedding `negMin` is a finite field element, matching the
use of `jnp.finfo(dtype).min` rather than a literal minus infinity.) -/
theorem chunk_bias_normal_entries {F : Type} [LinearOrderedField F]
    (query_chunk_size key_chunk_size : ℕ) (block_size : Option ℕ)
    (deterministic : Bool) (attn_pdrop negMin : F)
    (query_chunk_idx key_chunk_idx b h i j : ℕ) :
    _chunk_attention_bias query_chunk_size key_chunk_size block_size Option.none deterministic
        Option.none attn_pdrop CausalLayout.normal negMin query_chunk_idx key_chunk_idx b h i j
      = if query_chunk_idx * query_chunk_size + i < key_chunk_idx * key_chunk_size + j
        then negMin else 0 := by
  have hiff : ((i : ℤ) + ((↑(query_chunk_idx * query_chunk_size) : ℤ)
        - ↑(key_chunk_idx * key_chunk_size)) < (j : ℤ))
      ↔ query_chunk_idx * query_chunk_size + i < key_chunk_idx * key_chunk_size + j := by
    push_cast
    omega
  simp only [_chunk_attention_bias]
  rw [if_congr hiff rfl rfl]
  simp

/-! ### C9: blockwise_ffn chunking -/

/-- C9 counterexample: with a feed-forward function that looks at a whole
chunk (here: reversal within a chunk of two positions), `blockwise_ffn`
differs from applying the function to contiguous chunks, because the code
scans interleaved (strided) slices. -/
theorem blockwise_ffn_counterexample :
    blockwise_ffn (fun t => fun b c d => t b (1 - c) d) (fun _ p _ => p) 4 2 0 0 0
      ≠ blockwise_ffn_contiguous (fun t => fun b c d => t b (1 - c) d) (fun _ p _ => p) 2 0 0 0 := by
  decide

/-- C9 amended: `blockwise_ffn` applies the function to interleaved chunks
(scan step `t` sees positions `c * (seqLen / chunk_size) + t`), so for a
feed-forward function that acts position-wise the output equals the direct
position-wise application, and hence also equals the contiguous-chunk
decomposition of the spec. -/
theorem blockwise_ffn_positionwise {α : Type} (g : ℕ → ℕ → α → α)
    (inputs : ℕ → ℕ → ℕ → α) (seqLen chunk_size b p d : ℕ) :
    blockwise_ffn (fun t => fun b2 c d2 => g b2 d2 (t b2 c d2)) inputs seqLen chunk_size b p d
      = g b d (inputs b p d)
    ∧ blockwise_ffn_contiguous (fun t => fun b2 c d2 => g b2 d2 (t b2 c d2)) inputs chunk_size b p d
      = g b d (inputs b p d) := by
  constructor
  · show g b d (inputs b (p / (seqLen / chunk_size) * (seqLen / chunk_size)
      + p % (seqLen / chunk_size)) d) = g b d (inputs b p d)
    rw [Nat.div_add_mod']
  · show g b d (inputs b (p / chunk_size * chunk_size + p % chunk_size) d) = g b d (inputs b p d)
    rw [Nat.div_add_mod']

/-! ### C10: the dropout rng is irrelevant when dropout is off -/

/-- C10: with `deterministic = true` or `attn_pdrop ≤ 0`, the forward and
backward blockwise passes and ring attention are unchanged when only the
dropout rng differs: the mask is never drawn. -/
theorem dropout_rng_irrelevant {F : Type} [LinearOrderedField F] {R : Type}
    (E : F → F) (scale negMin : F) (D kv_len P L : ℕ)
    (query key value g dq0 dk0 dv0 output : Tensor4 F)
    (denominator max_score : ℕ → ℕ → ℕ → F)
    (bias : Option (Tensor4 F)) (deterministic : Bool) (rng₁ rng₂ : R)
    (bern : R → DropMask) (attn_pdrop : F) (causal : Bool)
    (causal_layout : CausalLayout)
    (query_chunk_size key_chunk_size block_size : ℕ)
    (carry : ℕ → ℕ → ℕ → Carry F)
    (q_chunk_idx_start k_chunk_idx_start num_q num_kv : ℕ)
    (h : deterministic = true ∨ attn_pdrop ≤ 0) :
    blockwise_attn E scale negMin D kv_len query key value bias deterministic rng₁ bern
        attn_pdrop causal query_chunk_size key_chunk_size
      = blockwise_attn E scale negMin D kv_len query key value bias deterministic rng₂ bern
        attn_pdrop causal query_chunk_size key_chunk_size
    ∧ _blockwise_attention_fwd E scale negMin D query key value carry
        q_chunk_idx_start k_chunk_idx_start bias causal_layout
        query_chunk_size key_chunk_size block_size deterministic rng₁ bern attn_pdrop num_kv
      = _blockwise_attention_fwd E scale negMin D query key value carry
        q_chunk_idx_start k_chunk_idx_start bias causal_layout
        query_chunk_size key_chunk_size block_size deterministic rng₂ bern attn_pdrop num_kv
    ∧ _blockwise_attention_bwd E scale negMin D query key value g dq0 dk0 dv0 output
        denominator max_score q_chunk_idx_start k_chunk_idx_start bias causal_layout
        query_chunk_size key_chunk_size block_size deterministic rng₁ bern attn_pdrop num_q num_kv
      = _blockwise_attention_bwd E scale negMin D query key value g dq0 dk0 dv0 output
        denominator max_score q_chunk_idx_start k_chunk_idx_start bias causal_layout
        query_chunk_size key_chunk_size block_size deterministic rng₂ bern attn_pdrop num_q num_kv
    ∧ ring_attention E scale negMin D P L causal_layout query_chunk_size key_chunk_size bias
        deterministic rng₁ bern attn_pdrop query key value
      = ring_attention E scale negMin D P L causal_layout query_chunk_size key_chunk_size bias
        deterministic rng₂ bern attn_pdrop query key value := by
  refine ⟨?_, ?_, ?_, ?_⟩
  · simp only [blockwise_attn, attn_dropout_of_none bern rng₁ h, attn_dropout_of_none bern rng₂ h]
  · simp only [_blockwise_attention_fwd, attn_dropout_of_none bern rng₁ h,
      attn_dropout_of_none bern rng₂ h]
  · simp only [_blockwise_attention_bwd, attn_dropout_of_none bern rng₁ h,
      attn_dropout_of_none bern rng₂ h]
  · have hstep : ringStep E scale negMin D P L causal_layout query_chunk_size key_chunk_size
        bias deterministic rng₁ bern attn_pdrop query
        = ringStep E scale negMin D P L causal_layout query_chunk_size key_chunk_size
          bias deterministic rng₂ bern attn_pdrop query := by
      funext st idx
      simp only [ringStep, _blockwise_attention_fwd, attn_dropout_of_none bern rng₁ h,
        attn_dropout_of_none bern rng₂ h]
    unfold ring_attention ring_scan
    rw [hstep]

/-- Witness for C10 at a concrete instance over ℚ with two distinct rng
keys. -/
theorem dropout_rng_irrelevant_witness :
    ((true : Bool) = true ∨ (1 : ℚ) ≤ 0) ∧
    blockwise_attn (fun _ => (1 : ℚ)) 1 (-1) 1 1 (fun _ _ _ _ => 1) (fun _ _ _ _ => 1)
        (fun _ _ _ _ => 1) Option.none true 0 (fun r _ _ _ _ => decide (r = 0)) 1 false 1 1
      = blockwise_attn (fun _ => (1 : ℚ)) 1 (-1) 1 1 (fun _ _ _ _ => 1) (fun _ _ _ _ => 1)
        (fun _ _ _ _ => 1) Option.none true 7 (fun r _ _ _ _ => decide (r = 0)) 1 false 1 1 :=
  ⟨Or.inl rfl,
   (dropout_rng_irrelevant (fun _ => (1 : ℚ)) 1 (-1) 1 1 1 1
     (fun _ _ _ _ => 1) (fun _ _ _ _ => 1) (fun _ _ _ _ => 1)
     (fun _ _ _ _ => 1) (fun _ _ _ _ => 1) (fun _ _ _ _ => 1) (fun _ _ _ _ => 1)
     (fun _ _ _ _ => 1) (fun _ _ _ => 1) (fun _ _ _ => 1)
     Option.none true 0 7 (fun r _ _ _ _ => decide (r = 0)) 1 false CausalLayout.none
     1 1 1 (fun _ _ _ => zeroCarry ℚ) 0 0 1 1 (Or.inl rfl)).1⟩

/-! ### C7: skipped backward pairs emit zero tiles and leave dq unchanged -/

/-- C7: in the tiled backward pass, a skipped (query tile, key tile) pair
passes the `dq` accumulator through unchanged and emits exact zero `dk` and
`dv` tiles; consequently deleting a skipped key tile from the scanned tile
list leaves the `dq` scan unchanged. -/
theorem bwd_skip_frame {F : Type} [LinearOrderedField F]
    (E : F → F) (scale : F) (D query_chunk_size key_chunk_size : ℕ)
    (causal_layout : CausalLayout) (block_size : ℕ)
    (q_chunk_idx_start k_chunk_idx_start : ℕ)
    (w : ℕ → ℕ → F) (qRow kRow vRow gRow outRow : ℕ → ℕ → F) (den mx : ℕ → F)
    (qt t : ℕ) (dq_chunk : ℕ → ℕ → F)
    (hskip : skip_block_bwd causal_layout query_chunk_size key_chunk_size block_size
      (q_chunk_idx_start + qt) (k_chunk_idx_start + t) = true) :
    bwd_skip_upper_half E scale D query_chunk_size key_chunk_size causal_layout block_size
        q_chunk_idx_start k_chunk_idx_start w qRow kRow vRow gRow outRow den mx qt t dq_chunk
      = (dq_chunk, fun _ _ => 0, fun _ _ => 0)
    ∧ ∀ ts₁ ts₂ : List ℕ,
        bwd_dq_scan E scale D query_chunk_size key_chunk_size causal_layout block_size
          q_chunk_idx_start k_chunk_idx_start w qRow kRow vRow gRow outRow den mx qt dq_chunk
          (ts₁ ++ t :: ts₂)
        = bwd_dq_scan E scale D query_chunk_size key_chunk_size causal_layout block_size
          q_chunk_idx_start k_chunk_idx_start w qRow kRow vRow gRow outRow den mx qt dq_chunk
          (ts₁ ++ ts₂) := by
  constructor
  · rw [bwd_skip_upper_half, if_pos hskip]
  · intro ts₁ ts₂
    simp only [bwd_dq_scan, List.foldl_append, List.foldl_cons]
    rw [bwd_skip_upper_half, if_pos hskip]

/-- Witness for C7 at a concrete skipped pair over ℚ. -/
theorem bwd_skip_frame_witness :
    (skip_block_bwd CausalLayout.normal 1 1 1 (0 + 0) (0 + 1) = true) ∧
    bwd_skip_upper_half (fun _ => (1 : ℚ)) 1 1 1 1 CausalLayout.normal 1 0 0
        (fun _ _ => 1) (fun _ _ => 1) (fun _ _ => 1) (fun _ _ => 1) (fun _ _ => 1)
        (fun _ _ => 1) (fun _ => 1) (fun _ => 1) 0 1 (fun _ _ => 1)
      = ((fun _ _ => 1), fun _ _ => 0, fun _ _ => 0) :=
  ⟨by decide,
   (bwd_skip_frame (fun _ => (1 : ℚ)) 1 1 1 1 CausalLayout.normal 1 0 0
     (fun _ _ => 1) (fun _ _ => 1) (fun _ _ => 1) (fun _ _ => 1) (fun _ _ => 1)
     (fun _ _ => 1) (fun _ => 1) (fun _ => 1) 0 1 (fun _ _ => 1) (by decide)).1⟩

/-! ### C4: the skip rules -/

/-- C4 counterexample: the claimed rule (skip iff the whole query tile lies
strictly below the whole key tile, `q_hi ≤ k_lo`) fails for the single
device entry point `blockwise_attn` when the chunk sizes differ: with
`query_chunk_size = 2`, `key_chunk_size = 4` and tile pair (1, 1) the
claimed condition holds (4 ≤ 4) but the code does not skip (1 < 1 is
false). -/
theorem skip_attn_counterexample :
    ¬ (skip_block_attn true 1 1 = true ↔ 1 * 2 + 2 ≤ 1 * 4) := by
  decide

/-- C4 amended: the forward and backward tile scans skip exactly by the
position rule `q_hi ≤ k_lo` (positions modulo `block_size` for the striped
layout, never for layout none), and the two predicates agree; the entry
point `blockwise_attn` instead skips iff `query_chunk_idx < key_chunk_idx`,
which coincides with the position rule exactly when the two chunk sizes are
equal (and it never skips when not causal). -/
theorem skip_rules_amended (query_chunk_size key_chunk_size block_size : ℕ) :
    (∀ q_idx k_idx, skip_block_fwd CausalLayout.none query_chunk_size key_chunk_size
        block_size q_idx k_idx = false)
    ∧ (∀ q_idx k_idx, skip_block_fwd CausalLayout.normal query_chunk_size key_chunk_size
        block_size q_idx k_idx = true
        ↔ q_idx * query_chunk_size + query_chunk_size ≤ k_idx * key_chunk_size)
    ∧ (∀ q_idx k_idx, skip_block_fwd CausalLayout.striped query_chunk_size key_chunk_size
        block_size q_idx k_idx = true
        ↔ (q_idx * query_chunk_size) % block_size + query_chunk_size
            ≤ (k_idx * key_chunk_size) % block_size)
    ∧ (∀ layout q_idx k_idx, skip_block_bwd layout query_chunk_size key_chunk_size
        block_size q_idx k_idx
        = skip_block_fwd layout query_chunk_size key_chunk_size block_size q_idx k_idx)
    ∧ (∀ q_idx k_idx, skip_block_attn true q_idx k_idx = true ↔ q_idx < k_idx)
    ∧ (∀ q_idx k_idx, skip_block_attn false q_idx k_idx = false)
    ∧ (0 < query_chunk_size → query_chunk_size = key_chunk_size →
        ∀ q_idx k_idx, (skip_block_attn true q_idx k_idx = true
          ↔ q_idx * query_chunk_size + query_chunk_size ≤ k_idx * key_chunk_size)) := by
  refine ⟨fun _ _ => rfl, ?_, ?_, ?_, ?_, fun _ _ => rfl, ?_⟩
  · intro q_idx k_idx
    simp [skip_block_fwd]
  · intro q_idx k_idx
    simp [skip_block_fwd]
  · intro layout q_idx k_idx
    cases layout <;> rfl
  · intro q_idx k_idx
    simp [skip_block_attn]
  · intro hpos heq q_idx k_idx
    subst heq
    simp only [skip_block_attn, Bool.true_and, decide_eq_true_eq]
    constructor
    · intro hlt
      calc q_idx * query_chunk_size + query_chunk_size
          = (q_idx + 1) * query_chunk_size := by ring
      _ ≤ k_idx * query_chunk_size := Nat.mul_le_mul_right _ hlt
    · intro hle
      by_contra hnot
      push_neg at hnot
      have : k_idx * query_chunk_size + query_chunk_size
          ≤ q_idx * query_chunk_size + query_chunk_size :=
        Nat.add_le_add_right (Nat.mul_le_mul_right _ hnot) _
      omega

/-- Witness for C4 amended at concrete tile indices. -/
theorem skip_rules_amended_witness :
    skip_block_fwd CausalLayout.normal 2 2 4 0 1 = true :=
  ((skip_rules_amended 2 2 4).2.1 0 1).mpr (by decide)

/-! ### C2: tiled streaming softmax equals dense attention -/

theorem chunk_bias_none_eq_zero {F : Type} [LinearOrderedField F]
    (query_chunk_size key_chunk_size : ℕ) (block_size : Option ℕ)
    (deterministic : Bool) (attn_pdrop negMin : F)
    (query_chunk_idx key_chunk_idx b h i j : ℕ) :
    _chunk_attention_bias query_chunk_size key_chunk_size block_size Option.none deterministic
        Option.none attn_pdrop CausalLayout.none negMin query_chunk_idx key_chunk_idx b h i j
      = 0 := by
  simp [_chunk_attention_bias]

theorem charCarry_range_out {F : Type} [LinearOrderedField F] (E : F → F)
    (hE : ∀ x y, E (x + y) = E x * E y) (hEpos : ∀ x, 0 < E x)
    (kv_len : ℕ) (hkv : 0 < kv_len) (w : ℕ → F) (vv : ℕ → ℕ → F) (d : ℕ) :
    (charCarry E w vv (List.range kv_len)).num d / (charCarry E w vv (List.range kv_len)).den
      = (∑ kp ∈ Finset.range kv_len, E (w kp) * vv kp d)
        / (∑ kp ∈ Finset.range kv_len, E (w kp)) := by
  obtain ⟨M, hM⟩ : ∃ M, maxKeys w (List.range kv_len) = some M := by
    cases hmk : maxKeys w (List.range kv_len) with
    | none =>
        have := (maxKeys_eq_none_iff w (List.range kv_len)).mp hmk
        rw [List.range_eq_nil] at this
        omega
    | some M => exact ⟨M, rfl⟩
  have h1 : ∀ kp : ℕ, E (w kp - M) = E (w kp) * E (-M) := by
    intro kp
    rw [← hE, sub_eq_add_neg]
  have hnum : ∑ kp ∈ Finset.range kv_len, E (w kp - M) * vv kp d
      = (∑ kp ∈ Finset.range kv_len, E (w kp) * vv kp d) * E (-M) := by
    rw [Finset.sum_mul]
    apply Finset.sum_congr rfl
    intro kp _
    rw [h1, mul_right_comm]
  have hden : ∑ kp ∈ Finset.range kv_len, E (w kp - M)
      = (∑ kp ∈ Finset.range kv_len, E (w kp)) * E (-M) := by
    rw [Finset.sum_mul]
    apply Finset.sum_congr rfl
    intro kp _
    rw [h1]
  simp only [charCarry, hM]
  rw [listRangeMapSum, listRangeMapSum, hnum, hden,
    mul_div_mul_right _ _ (ne_of_gt (hEpos (-M)))]

/-- C2: with `causal = false`, no user bias and deterministic execution, the
tiled streaming-softmax forward `blockwise_attn` returns exactly the dense
softmax attention `softmax(Q Kᵀ / scale) V` (softmax through the abstract
exponential `E`), whenever the key chunk size divides the key length. -/
theorem blockwise_attn_eq_reference {F : Type} [LinearOrderedField F] {R : Type}
    (E : F → F) (hE : ∀ x y, E (x + y) = E x * E y) (hEpos : ∀ x, 0 < E x)
    (scale negMin : F) (D kv_len : ℕ) (query key value : Tensor4 F)
    (rng : R) (bern : R → DropMask) (attn_pdrop : F)
    (query_chunk_size key_chunk_size : ℕ)
    (hkcs : 0 < key_chunk_size) (hdvd : key_chunk_size ∣ kv_len) (hkv : 0 < kv_len)
    (b qp h d : ℕ) :
    blockwise_attn E scale negMin D kv_len query key value Option.none true rng bern
        attn_pdrop false query_chunk_size key_chunk_size b qp h d
      = attention_reference E scale D kv_len query key value b qp h d := by
  have hskip : (fun t => skip_block_attn false (qp / query_chunk_size) t)
      = (fun _ : ℕ => false) := by
    funext t
    rfl
  have hdrop : attn_dropout_of true attn_pdrop bern rng = Option.none :=
    attn_dropout_of_none bern rng (Or.inl rfl)
  unfold blockwise_attn
  simp only [hdrop, Bool.false_eq_true, if_false, chunk_bias_none_eq_zero, add_zero, hskip]
  rw [rowScan_charCarry E hE key_chunk_size hkcs, keysOf_all, Nat.div_mul_cancel hdvd,
    charCarry_range_out E hE hEpos kv_len hkv]
  unfold attention_reference
  have hw : ∀ kp : ℕ, (∑ dd ∈ Finset.range D, query b qp h dd / scale * key b kp h dd)
      = (∑ dd ∈ Finset.range D, query b qp h dd * key b kp h dd) / scale := by
    intro kp
    rw [Finset.sum_div]
    apply Finset.sum_congr rfl
    intro dd _
    rw [div_mul_eq_mul_div]
  simp only [hw]

/-- Witness for C2 at a concrete instance over ℚ with the constant-one
exponential model. -/
theorem blockwise_attn_eq_reference_witness :
    (0 < 1 ∧ (1 : ℕ) ∣ 2 ∧ 0 < 2) ∧
    blockwise_attn (fun _ => (1 : ℚ)) 1 (-1) 1 2 (fun _ _ _ _ => 1) (fun _ _ _ _ => 1)
        (fun _ kp _ _ => (kp : ℚ)) Option.none true (0 : ℕ) (fun _ _ _ _ _ => false) 0
        false 1 1 0 0 0 0
      = attention_reference (fun _ => (1 : ℚ)) 1 1 2 (fun _ _ _ _ => 1) (fun _ _ _ _ => 1)
        (fun _ kp _ _ => (kp : ℚ)) 0 0 0 0 :=
  ⟨⟨Nat.one_pos, ⟨Dvd.intro 2 rfl, Nat.zero_lt_two⟩⟩,
   blockwise_attn_eq_reference (fun _ => (1 : ℚ)) (fun x y => by norm_num)
     (fun x => one_pos) 1 (-1) 1 2 (fun _ _ _ _ => 1) (fun _ _ _ _ => 1)
     (fun _ kp _ _ => (kp : ℚ)) (0 : ℕ) (fun _ _ _ _ _ => false) 0 1 1
     Nat.one_pos (Dvd.intro 2 rfl) Nat.zero_lt_two 0 0 0 0⟩

/-! ### Ring decomposition machinery (C1, C5) -/

theorem rowScan_append {F : Type} [LinearOrderedField F] (E : F → F) (kcs : ℕ)
    (w : ℕ → F) (vv : ℕ → ℕ → F) (skip : ℕ → Bool) (c : Carry F) (l₁ l₂ : List ℕ) :
    rowScan E kcs w vv skip c (l₁ ++ l₂)
      = rowScan E kcs w vv skip (rowScan E kcs w vv skip c l₁) l₂ := by
  simp [rowScan, List.foldl_append]

theorem rowStep_shift {F : Type} [LinearOrderedField F] (E : F → F) (kcs : ℕ)
    (w w' : ℕ → F) (vv vv' : ℕ → ℕ → F) (s : ℕ)
    (hw : ∀ p, w' p = w (s * kcs + p)) (hv : ∀ p d, vv' p d = vv (s * kcs + p) d)
    (c : Carry F) (t : ℕ) :
    rowStep E kcs w' vv' c t = rowStep E kcs w vv c (s + t) := by
  have hidx : ∀ j, w' (t * kcs + j) = w ((s + t) * kcs + j) := by
    intro j
    rw [hw]
    have harith : s * kcs + (t * kcs + j) = (s + t) * kcs + j := by ring
    rw [harith]
  have hidx2 : ∀ j d, vv' (t * kcs + j) d = vv ((s + t) * kcs + j) d := by
    intro j d
    rw [hv]
    have harith : s * kcs + (t * kcs + j) = (s + t) * kcs + j := by ring
    rw [harith]
  have hmax : (List.range kcs).foldl (fun o j => omax o (w' (t * kcs + j))) c.m
      = (List.range kcs).foldl (fun o j => omax o (w ((s + t) * kcs + j))) c.m := by
    apply List.foldl_ext
    intro o j _
    rw [hidx]
  rw [rowStep, rowStep, hmax]
  cases hm : (List.range kcs).foldl (fun o j => omax o (w ((s + t) * kcs + j))) c.m with
  | none => rfl
  | some M => simp only [hidx, hidx2]

theorem rowScan_shift {F : Type} [LinearOrderedField F] (E : F → F) (kcs : ℕ)
    (w w' : ℕ → F) (vv vv' : ℕ → ℕ → F) (skip skip' : ℕ → Bool) (s : ℕ)
    (hw : ∀ p, w' p = w (s * kcs + p)) (hv : ∀ p d, vv' p d = vv (s * kcs + p) d)
    (hs : ∀ t, skip' t = skip (s + t)) (c : Carry F) (n : ℕ) :
    rowScan E kcs w' vv' skip' c (List.range n)
      = rowScan E kcs w vv skip c ((List.range n).map (fun lt => s + lt)) := by
  rw [rowScan, rowScan, List.foldl_map]
  apply List.foldl_ext
  intro c' t _
  rw [hs, rowStep_shift E kcs w w' vv vv' s hw hv]

theorem nat_block_div (c L m x : ℕ) (hc : 0 < c) (hdvd : c ∣ L) :
    (m * L + x) / c = m * (L / c) + x / c := by
  obtain ⟨u, rfl⟩ := hdvd
  rw [Nat.mul_div_cancel_left u hc]
  have : m * (c * u) + x = c * (m * u) + x := by ring
  rw [this, Nat.mul_add_div hc]

theorem nat_block_mod (c L m x : ℕ) (hdvd : c ∣ L) :
    (m * L + x) % c = x % c := by
  obtain ⟨u, rfl⟩ := hdvd
  have : m * (c * u) + x = c * (m * u) + x := by ring
  rw [this, Nat.mul_add_mod]

theorem kBlockIdx_lt (P r idx : ℕ) (hP : 0 < P) : kBlockIdx P r idx < P := by
  have hP' : (0 : ℤ) < (P : ℤ) := by exact_mod_cast hP
  have h1 : ((r : ℤ) - (idx : ℤ)) % (P : ℤ) < (P : ℤ) :=
    Int.emod_lt_of_pos _ hP'
  have h2 : (0 : ℤ) ≤ ((r : ℤ) - (idx : ℤ)) % (P : ℤ) :=
    Int.emod_nonneg _ (by omega)
  rw [kBlockIdx]
  omega

theorem kBlockIdx_zero (P r : ℕ) (hr : r < P) : kBlockIdx P r 0 = r := by
  rw [kBlockIdx]
  have : ((r : ℤ) - (0 : ℕ)) % (P : ℤ) = (r : ℤ) := by
    rw [Int.emod_eq_of_lt] <;> omega
  rw [this]
  omega

theorem kBlockIdx_rot (P r n : ℕ) (hP : 0 < P) :
    kBlockIdx P ((r + P - 1) % P) n = kBlockIdx P r (n + 1) := by
  rw [kBlockIdx, kBlockIdx]
  congr 1
  have hmod : ((((r + P - 1) % P : ℕ)) : ℤ) % (P : ℤ) = ((r : ℤ) + (P : ℤ) - 1) % (P : ℤ) := by
    rw [Int.natCast_mod, Int.emod_emod_of_dvd _ dvd_rfl]
    congr 1
    omega
  have hme : Int.ModEq (P : ℤ) (((( (r + P - 1) % P : ℕ)) : ℤ) - (n : ℤ))
      (((r : ℤ) + (P : ℤ) - 1) - (n : ℤ)) :=
    Int.ModEq.sub hmod (Int.ModEq.refl _)
  have hme2 : Int.ModEq (P : ℤ) (((r : ℤ) + (P : ℤ) - 1) - (n : ℤ))
      ((r : ℤ) - ((n : ℤ) + 1)) :=
    Int.modEq_iff_dvd.mpr ⟨-1, by ring⟩
  have h := hme.trans hme2
  have hcast : ((n + 1 : ℕ) : ℤ) = (n : ℤ) + 1 := by push_cast; ring
  rw [hcast]
  exact h

theorem kBlockIdx_inj (P r : ℕ) (hP : 0 < P) (x y : ℕ) (hx : x < P) (hy : y < P)
    (hxy : kBlockIdx P r x = kBlockIdx P r y) : x = y := by
  have hP' : (P : ℤ) ≠ 0 := by exact_mod_cast hP.ne'
  have n1 : (0 : ℤ) ≤ ((r : ℤ) - (x : ℤ)) % (P : ℤ) := Int.emod_nonneg _ hP'
  have n2 : (0 : ℤ) ≤ ((r : ℤ) - (y : ℤ)) % (P : ℤ) := Int.emod_nonneg _ hP'
  have h1 : ((r : ℤ) - (x : ℤ)) % (P : ℤ) = ((r : ℤ) - (y : ℤ)) % (P : ℤ) := by
    rw [kBlockIdx, kBlockIdx] at hxy
    omega
  have h2 : Int.ModEq (P : ℤ) ((r : ℤ) - ((r : ℤ) - (x : ℤ))) ((r : ℤ) - ((r : ℤ) - (y : ℤ))) :=
    Int.ModEq.sub (Int.ModEq.refl _) h1
  have h3 : ((x : ℤ)) % (P : ℤ) = ((y : ℤ)) % (P : ℤ) := by
    have e1 : (r : ℤ) - ((r : ℤ) - (x : ℤ)) = (x : ℤ) := by ring
    have e2 : (r : ℤ) - ((r : ℤ) - (y : ℤ)) = (y : ℤ) := by ring
    rw [e1, e2] at h2
    exact h2
  have hx' : ((x : ℤ)) % (P : ℤ) = (x : ℤ) := Int.emod_eq_of_lt (by omega) (by exact_mod_cast hx)
  have hy' : ((y : ℤ)) % (P : ℤ) = (y : ℤ) := Int.emod_eq_of_lt (by omega) (by exact_mod_cast hy)
  rw [hx', hy'] at h3
  exact_mod_cast h3

theorem kBlockIdx_surj (P r a : ℕ) (hP : 0 < P) (ha : a < P) :
    ∃ idx, idx < P ∧ kBlockIdx P r idx = a := by
  have hP' : (P : ℤ) ≠ 0 := by exact_mod_cast hP.ne'
  refine ⟨(((r : ℤ) - (a : ℤ)) % (P : ℤ)).toNat, ?_, ?_⟩
  · have h1 : ((r : ℤ) - (a : ℤ)) % (P : ℤ) < (P : ℤ) :=
      Int.emod_lt_of_pos _ (by exact_mod_cast hP)
    have h2 : (0 : ℤ) ≤ ((r : ℤ) - (a : ℤ)) % (P : ℤ) := Int.emod_nonneg _ hP'
    omega
  · rw [kBlockIdx]
    have h2 : (0 : ℤ) ≤ ((r : ℤ) - (a : ℤ)) % (P : ℤ) := Int.emod_nonneg _ hP'
    have hcast : (((((r : ℤ) - (a : ℤ)) % (P : ℤ)).toNat : ℤ)) = ((r : ℤ) - (a : ℤ)) % (P : ℤ) :=
      Int.toNat_of_nonneg h2
    rw [hcast]
    have hme : Int.ModEq (P : ℤ) ((r : ℤ) - ((r : ℤ) - (a : ℤ)) % (P : ℤ))
        ((r : ℤ) - ((r : ℤ) - (a : ℤ))) := by
      refine Int.ModEq.sub (Int.ModEq.refl _) ?_
      unfold Int.ModEq
      exact Int.emod_emod_of_dvd _ dvd_rfl
    have e1 : (r : ℤ) - ((r : ℤ) - (a : ℤ)) = (a : ℤ) := by ring
    rw [e1] at hme
    unfold Int.ModEq at hme
    rw [hme, Int.emod_eq_of_lt (by omega) (by exact_mod_cast ha)]
    omega

theorem map_kBlockIdx_perm (P r : ℕ) (hP : 0 < P) :
    ((List.range P).map (fun idx => kBlockIdx P r idx)).Perm (List.range P) := by
  apply (List.perm_ext_iff_of_nodup ?_ (List.nodup_range P)).mpr
  · intro a
    simp only [List.mem_map, List.mem_range]
    constructor
    · rintro ⟨idx, hidx, rfl⟩
      exact kBlockIdx_lt P r idx hP
    · intro ha
      obtain ⟨idx, hidx, heq⟩ := kBlockIdx_surj P r a hP ha
      exact ⟨idx, hidx, heq⟩
  · apply (List.nodup_range P).map_on
    intro x hx y hy hxy
    exact kBlockIdx_inj P r hP x y (List.mem_range.mp hx) (List.mem_range.mp hy) hxy

theorem ringTiles_succ (P numKv r n : ℕ) :
    ringTiles P numKv r (n + 1)
      = ringTiles P numKv r n
        ++ (List.range numKv).map (fun lt => kBlockIdx P r n * numKv + lt) := by
  rw [ringTiles, List.range_succ, List.flatMap_append]
  simp [ringTiles]

theorem ringTiles_perm_range (P numKv r : ℕ) (hP : 0 < P) :
    (ringTiles P numKv r P).Perm (List.range (P * numKv)) := by
  have h1 : ringTiles P numKv r P
      = ((List.range P).map (fun idx => kBlockIdx P r idx)).flatMap (tileKeys numKv) := by
    rw [ringTiles, List.flatMap_map]
    rfl
  rw [h1]
  have h2 := (map_kBlockIdx_perm P r hP).flatMap_right (tileKeys numKv)
  rw [flatMap_tileKeys] at h2
  exact h2

theorem ringStep_fields {F : Type} [LinearOrderedField F] {R : Type}
    (E : F → F) (scale negMin : F) (D P L : ℕ)
    (causal_layout : CausalLayout) (query_chunk_size key_chunk_size : ℕ)
    (attn_bias : Option (Tensor4 F))
    (deterministic : Bool) (dropout_rng : R) (bern : R → DropMask) (attn_pdrop : F)
    (q : Tensor4 F) (st : RingSt F) (idx : ℕ) :
    (ringStep E scale negMin D P L causal_layout query_chunk_size key_chunk_size attn_bias
        deterministic dropout_rng bern attn_pdrop q st idx).kk
      = (fun r => st.kk ((r + P - 1) % P))
    ∧ (ringStep E scale negMin D P L causal_layout query_chunk_size key_chunk_size attn_bias
        deterministic dropout_rng bern attn_pdrop q st idx).vv
      = (fun r => st.vv ((r + P - 1) % P))
    ∧ (ringStep E scale negMin D P L causal_layout query_chunk_size key_chunk_size attn_bias
        deterministic dropout_rng bern attn_pdrop q st idx).carry
      = (fun r =>
          _blockwise_attention_fwd E scale negMin D
            (fun b lq h d => q b (r * L + lq) h d) (st.kk r) (st.vv r) (st.carry r)
            (r * (L / query_chunk_size)) (kBlockIdx P r idx * (L / key_chunk_size))
            (Option.map (fun bf => fun b h i j => bf b h i (kBlockIdx P r idx * L + j)) attn_bias)
            causal_layout query_chunk_size key_chunk_size L
            deterministic dropout_rng bern attn_pdrop (L / key_chunk_size)) :=
  ⟨rfl, rfl, rfl⟩

theorem ring_scan_invariant {F : Type} [LinearOrderedField F] {R : Type}
    (E : F → F) (scale negMin : F) (D P L : ℕ)
    (causal_layout : CausalLayout) (query_chunk_size key_chunk_size : ℕ)
    (deterministic : Bool) (dropout_rng : R) (bern : R → DropMask) (attn_pdrop : F)
    (q k v : Tensor4 F)
    (hP : 0 < P) (hq : 0 < query_chunk_size) (hk : 0 < key_chunk_size)
    (hqL : query_chunk_size ∣ L) (hkL : key_chunk_size ∣ L) (n : ℕ) :
    ∀ r, r < P →
      ((List.range n).foldl
          (ringStep E scale negMin D P L causal_layout query_chunk_size key_chunk_size
            Option.none deterministic dropout_rng bern attn_pdrop q)
          { carry := fun _ _ _ _ => zeroCarry F,
            kk := fun r2 => fun b lk h d => k b (r2 * L + lk) h d,
            vv := fun r2 => fun b lk h d => v b (r2 * L + lk) h d }).kk r
        = (fun b lk h d => k b (kBlockIdx P r n * L + lk) h d)
      ∧ ((List.range n).foldl
          (ringStep E scale negMin D P L causal_layout query_chunk_size key_chunk_size
            Option.none deterministic dropout_rng bern attn_pdrop q)
          { carry := fun _ _ _ _ => zeroCarry F,
            kk := fun r2 => fun b lk h d => k b (r2 * L + lk) h d,
            vv := fun r2 => fun b lk h d => v b (r2 * L + lk) h d }).vv r
        = (fun b lk h d => v b (kBlockIdx P r n * L + lk) h d)
      ∧ ∀ b h lq, lq < L →
          ((List.range n).foldl
            (ringStep E scale negMin D P L causal_layout query_chunk_size key_chunk_size
              Option.none deterministic dropout_rng bern attn_pdrop q)
            { carry := fun _ _ _ _ => zeroCarry F,
              kk := fun r2 => fun b lk h d => k b (r2 * L + lk) h d,
              vv := fun r2 => fun b lk h d => v b (r2 * L + lk) h d }).carry r b h lq
          = rowScan E key_chunk_size
              (globalWeight scale negMin D q k Option.none causal_layout
                query_chunk_size key_chunk_size L deterministic
                (attn_dropout_of deterministic attn_pdrop bern dropout_rng) attn_pdrop
                b h (r * L + lq))
              (fun kp dd => v b kp h dd)
              (fun t => skip_block_fwd causal_layout query_chunk_size key_chunk_size L
                ((r * L + lq) / query_chunk_size) t)
              (zeroCarry F) (ringTiles P (L / key_chunk_size) r n) := by
  induction n with
  | zero =>
      intro r hr
      refine ⟨?_, ?_, ?_⟩
      · show (fun b lk h d => k b (r * L + lk) h d)
          = fun b lk h d => k b (kBlockIdx P r 0 * L + lk) h d
        rw [kBlockIdx_zero P r hr]
      · show (fun b lk h d => v b (r * L + lk) h d)
          = fun b lk h d => v b (kBlockIdx P r 0 * L + lk) h d
        rw [kBlockIdx_zero P r hr]
      · intro b h lq _
        rfl
  | succ n ih =>
      intro r hr
      rw [List.range_succ, List.foldl_append, List.foldl_cons, List.foldl_nil]
      obtain ⟨ihk, ihv, ihc⟩ := ih r hr
      obtain ⟨ihk2, ihv2, _⟩ := ih ((r + P - 1) % P) (Nat.mod_lt _ hP)
      obtain ⟨hfk, hfv, hfc⟩ := ringStep_fields E scale negMin D P L causal_layout
        query_chunk_size key_chunk_size Option.none deterministic dropout_rng bern attn_pdrop q
        ((List.range n).foldl
          (ringStep E scale negMin D P L causal_layout query_chunk_size key_chunk_size
            Option.none deterministic dropout_rng bern attn_pdrop q)
          { carry := fun _ _ _ _ => zeroCarry F,
            kk := fun r2 => fun b lk h d => k b (r2 * L + lk) h d,
            vv := fun r2 => fun b lk h d => v b (r2 * L + lk) h d }) n
      refine ⟨?_, ?_, ?_⟩
      · rw [hfk]
        simp only []
        rw [ihk2, kBlockIdx_rot P r n hP]
      · rw [hfv]
        simp only []
        rw [ihv2, kBlockIdx_rot P r n hP]
      · intro b h lq hlq
        rw [hfc]
        simp only []
        rw [ihk, ihv, _blockwise_attention_fwd]
        simp only []
        rw [ihc b h lq hlq, ringTiles_succ, rowScan_append]
        have hsk : kBlockIdx P r n * (L / key_chunk_size) * key_chunk_size
            = kBlockIdx P r n * L := by
          rw [mul_assoc, Nat.div_mul_cancel hkL]
        have hqdiv : (r * L + lq) / query_chunk_size
            = r * (L / query_chunk_size) + lq / query_chunk_size :=
          nat_block_div query_chunk_size L r lq hq hqL
        have hqmod : (r * L + lq) % query_chunk_size = lq % query_chunk_size :=
          nat_block_mod query_chunk_size L r lq hqL
        refine rowScan_shift E key_chunk_size
          (globalWeight scale negMin D q k Option.none causal_layout
            query_chunk_size key_chunk_size L deterministic
            (attn_dropout_of deterministic attn_pdrop bern dropout_rng) attn_pdrop
            b h (r * L + lq))
          _ (fun kp dd => v b kp h dd) _ _ _
          (kBlockIdx P r n * (L / key_chunk_size)) ?_ ?_ ?_ _ _
        · intro p
          rw [globalWeight]
          rw [hsk]
          have hkdiv : (kBlockIdx P r n * L + p) / key_chunk_size
              = kBlockIdx P r n * (L / key_chunk_size) + p / key_chunk_size :=
            nat_block_div key_chunk_size L (kBlockIdx P r n) p hk hkL
          have hkmod : (kBlockIdx P r n * L + p) % key_chunk_size = p % key_chunk_size :=
            nat_block_mod key_chunk_size L (kBlockIdx P r n) p hkL
          rw [hkdiv, hkmod, hqdiv, hqmod]
          rfl
        · intro p dd
          rw [hsk]
        · intro t
          rw [hqdiv]

/-- C1: ring decomposition.  For every participant count `P`, local block
length `L` with both chunk sizes dividing `L`, every causal layout and no
user bias, the per-rank outputs of `ring_attention` (each hop calling the
blockwise forward with query tile offset `r * (L / query_chunk_size)` and
key tile offset `k_rank * (L / key_chunk_size)`, rotating key/value by
`rank → rank + 1 mod P`) equal the single-device blockwise forward pass run
once over the full unsplit `P*L` sequence (same chunk sizes and block
size). -/
theorem ring_decomposition {F : Type} [LinearOrderedField F] {R : Type}
    (E : F → F) (hE : ∀ x y, E (x + y) = E x * E y)
    (scale negMin : F) (D P L : ℕ) (causal_layout : CausalLayout)
    (query_chunk_size key_chunk_size : ℕ)
    (deterministic : Bool) (dropout_rng : R) (bern : R → DropMask) (attn_pdrop : F)
    (q k v : Tensor4 F)
    (hP : 0 < P) (hq : 0 < query_chunk_size) (hk : 0 < key_chunk_size)
    (hqL : query_chunk_size ∣ L) (hkL : key_chunk_size ∣ L)
    (r b h lq d : ℕ) (hr : r < P) (hlq : lq < L) :
    ring_attention E scale negMin D P L causal_layout query_chunk_size key_chunk_size
        Option.none deterministic dropout_rng bern attn_pdrop q k v r b lq h d
      = blockwise_fwd_output E scale negMin D q k v Option.none causal_layout
        query_chunk_size key_chunk_size L deterministic dropout_rng bern attn_pdrop
        (P * L / key_chunk_size) b (r * L + lq) h d := by
  obtain ⟨-, -, hc⟩ := ring_scan_invariant E scale negMin D P L causal_layout
    query_chunk_size key_chunk_size deterministic dropout_rng bern attn_pdrop q k v
    hP hq hk hqL hkL P r hr
  unfold ring_attention ring_scan
  rw [hc b h lq hlq]
  unfold blockwise_fwd_output _blockwise_attention_fwd
  simp only [Nat.zero_add]
  unfold globalWeight
  rw [Nat.mul_div_assoc P hkL]
  rw [rowScan_charCarry E hE key_chunk_size hk, rowScan_charCarry E hE key_chunk_size hk]
  have hperm : (keysOf key_chunk_size
      (fun t => skip_block_fwd causal_layout query_chunk_size key_chunk_size L
        ((r * L + lq) / query_chunk_size) t)
      (ringTiles P (L / key_chunk_size) r P)).Perm
      (keysOf key_chunk_size
        (fun t => skip_block_fwd causal_layout query_chunk_size key_chunk_size L
          ((r * L + lq) / query_chunk_size) t)
        (List.range (P * (L / key_chunk_size)))) :=
    ((ringTiles_perm_range P (L / key_chunk_size) r hP).filter _).flatMap_right _
  rw [charCarry_perm E _ _ hperm]

/-- Witness for C1 at a concrete two-rank instance over ℚ. -/
theorem ring_decomposition_witness :
    (0 < 2 ∧ 0 < 1 ∧ (1 : ℕ) ∣ 2 ∧ 1 < 2) ∧
    ring_attention (fun _ => (1 : ℚ)) 1 (-1) 1 2 2 CausalLayout.normal 1 1
        Option.none true (0 : ℕ) (fun _ _ _ _ _ => false) 0
        (fun _ _ _ _ => 1) (fun _ _ _ _ => 1) (fun _ p _ _ => (p : ℚ)) 1 0 1 0 0
      = blockwise_fwd_output (fun _ => (1 : ℚ)) 1 (-1) 1
        (fun _ _ _ _ => 1) (fun _ _ _ _ => 1) (fun _ p _ _ => (p : ℚ)) Option.none
        CausalLayout.normal 1 1 2 true (0 : ℕ) (fun _ _ _ _ _ => false) 0
        (2 * 2 / 1) 0 (1 * 2 + 1) 0 0 :=
  ⟨⟨Nat.zero_lt_two, Nat.one_pos, ⟨2, rfl⟩, Nat.one_lt_two⟩,
   ring_decomposition (fun _ => (1 : ℚ)) (fun x y => by norm_num) 1 (-1) 1 2 2
     CausalLayout.normal 1 1 true (0 : ℕ) (fun _ _ _ _ _ => false) 0
     (fun _ _ _ _ => 1) (fun _ _ _ _ => 1) (fun _ p _ _ => (p : ℚ))
     Nat.zero_lt_two Nat.one_pos Nat.one_pos ⟨2, rfl⟩ ⟨2, rfl⟩
     1 0 0 1 0 Nat.one_lt_two Nat.one_lt_two⟩

/-! ### C5: the diagonal tile is never skipped and the denominator is positive -/

/-- C5: for the contiguous and striped causal layouts, the skip predicate is
false at the key tile containing any query position (in particular the
query tile's own diagonal positions), so at least one key tile is folded
into every accumulator row, and every denominator of the ring forward pass
is strictly positive. -/
theorem diag_not_skipped_den_pos {F : Type} [LinearOrderedField F] {R : Type}
    (E : F → F) (hE : ∀ x y, E (x + y) = E x * E y) (hEpos : ∀ x, 0 < E x)
    (scale negMin : F) (D P L : ℕ) (causal_layout : CausalLayout)
    (hlayout : causal_layout = CausalLayout.normal ∨ causal_layout = CausalLayout.striped)
    (query_chunk_size key_chunk_size : ℕ)
    (deterministic : Bool) (dropout_rng : R) (bern : R → DropMask) (attn_pdrop : F)
    (q k v : Tensor4 F)
    (hP : 0 < P) (hL : 0 < L) (hq : 0 < query_chunk_size) (hk : 0 < key_chunk_size)
    (hqL : query_chunk_size ∣ L) (hkL : key_chunk_size ∣ L) :
    (∀ qg, skip_block_fwd causal_layout query_chunk_size key_chunk_size L
        (qg / query_chunk_size) (qg / key_chunk_size) = false)
    ∧ ∀ r b h lq, r < P → lq < L →
        0 < ((ring_scan E scale negMin D P L causal_layout query_chunk_size key_chunk_size
          Option.none deterministic dropout_rng bern attn_pdrop q k v).carry r b h lq).den := by
  have hdiag : ∀ qg, skip_block_fwd causal_layout query_chunk_size key_chunk_size L
      (qg / query_chunk_size) (qg / key_chunk_size) = false := by
    intro qg
    have hklo : ∀ x : ℕ, x / key_chunk_size * key_chunk_size ≤ x := fun x =>
      Nat.div_mul_le_self x key_chunk_size
    have hqhi : ∀ x : ℕ, x < x / query_chunk_size * query_chunk_size + query_chunk_size := by
      intro x
      have e := Nat.div_add_mod' x query_chunk_size
      have hm := Nat.mod_lt x hq
      omega
    rcases hlayout with hl | hl <;> subst hl
    · simp only [skip_block_fwd, decide_eq_false_iff_not]
      intro habs
      exact absurd ((hqhi qg).trans_le (habs.trans (hklo qg))) (lt_irrefl qg)
    · simp only [skip_block_fwd, decide_eq_false_iff_not]
      have hx : qg % L < L := Nat.mod_lt qg hL
      have edecomp : qg = qg / L * L + qg % L := (Nat.div_add_mod' qg L).symm
      have hqdiv : qg / query_chunk_size
          = qg / L * (L / query_chunk_size) + qg % L / query_chunk_size := by
        conv_lhs => rw [edecomp]
        exact nat_block_div query_chunk_size L (qg / L) (qg % L) hq hqL
      have hkdiv : qg / key_chunk_size
          = qg / L * (L / key_chunk_size) + qg % L / key_chunk_size := by
        conv_lhs => rw [edecomp]
        exact nat_block_div key_chunk_size L (qg / L) (qg % L) hk hkL
      have hqlo : qg / query_chunk_size * query_chunk_size % L
          = qg % L / query_chunk_size * query_chunk_size := by
        rw [hqdiv, add_mul, mul_assoc, Nat.div_mul_cancel hqL, nat_block_mod L L _ _ dvd_rfl,
          Nat.mod_eq_of_lt ((Nat.div_mul_le_self _ _).trans_lt hx)]
      have hklo2 : qg / key_chunk_size * key_chunk_size % L
          = qg % L / key_chunk_size * key_chunk_size := by
        rw [hkdiv, add_mul, mul_assoc, Nat.div_mul_cancel hkL, nat_block_mod L L _ _ dvd_rfl,
          Nat.mod_eq_of_lt ((Nat.div_mul_le_self _ _).trans_lt hx)]
      rw [hqlo, hklo2]
      intro habs
      exact absurd ((hqhi (qg % L)).trans_le (habs.trans (hklo (qg % L))))
        (lt_irrefl (qg % L))
  refine ⟨hdiag, ?_⟩
  intro r b h lq hr hlq
  obtain ⟨-, -, hc⟩ := ring_scan_invariant E scale negMin D P L causal_layout
    query_chunk_size key_chunk_size deterministic dropout_rng bern attn_pdrop q k v
    hP hq hk hqL hkL P r hr
  unfold ring_scan
  rw [hc b h lq hlq]
  rw [rowScan_charCarry E hE key_chunk_size hk]
  have hmem : (r * L + lq) / key_chunk_size * key_chunk_size
      ∈ keysOf key_chunk_size
        (fun t => skip_block_fwd causal_layout query_chunk_size key_chunk_size L
          ((r * L + lq) / query_chunk_size) t)
        (ringTiles P (L / key_chunk_size) r P) := by
    rw [keysOf]
    apply List.mem_flatMap.mpr
    refine ⟨(r * L + lq) / key_chunk_size, ?_, ?_⟩
    · apply List.mem_filter.mpr
      constructor
      · rw [ringTiles]
        apply List.mem_flatMap.mpr
        refine ⟨0, List.mem_range.mpr hP, ?_⟩
        apply List.mem_map.mpr
        refine ⟨lq / key_chunk_size, ?_, ?_⟩
        · apply List.mem_range.mpr
          obtain ⟨u, rfl⟩ := hkL
          have hlt := Nat.div_lt_div_of_lt_of_dvd (dvd_mul_right key_chunk_size u) hlq
          rw [Nat.mul_div_cancel_left u hk] at hlt
          rw [Nat.mul_div_cancel_left u hk]
          exact hlt
        · rw [kBlockIdx_zero P r hr, nat_block_div key_chunk_size L r lq hk hkL]
      · simp only [Bool.not_eq_eq_eq_not, Bool.not_true]
        exact hdiag (r * L + lq)
    · rw [tileKeys]
      apply List.mem_map.mpr
      exact ⟨0, List.mem_range.mpr hk, by omega⟩
  obtain ⟨M, hM⟩ : ∃ M, maxKeys
      (globalWeight scale negMin D q k Option.none causal_layout
        query_chunk_size key_chunk_size L deterministic
        (attn_dropout_of deterministic attn_pdrop bern dropout_rng) attn_pdrop
        b h (r * L + lq))
      (keysOf key_chunk_size
        (fun t => skip_block_fwd causal_layout query_chunk_size key_chunk_size L
          ((r * L + lq) / query_chunk_size) t)
        (ringTiles P (L / key_chunk_size) r P)) = some M := by
    cases hmk : maxKeys
        (globalWeight scale negMin D q k Option.none causal_layout
          query_chunk_size key_chunk_size L deterministic
          (attn_dropout_of deterministic attn_pdrop bern dropout_rng) attn_pdrop
          b h (r * L + lq))
        (keysOf key_chunk_size
          (fun t => skip_block_fwd causal_layout query_chunk_size key_chunk_size L
            ((r * L + lq) / query_chunk_size) t)
          (ringTiles P (L / key_chunk_size) r P)) with
    | none =>
        rw [maxKeys_eq_none_iff] at hmk
        rw [hmk] at hmem
        exact absurd hmem (List.not_mem_nil _)
    | some M => exact ⟨M, rfl⟩
  simp only [charCarry, hM]
  apply List.sum_pos
  · intro x hx
    obtain ⟨p, -, rfl⟩ := List.mem_map.mp hx
    exact hEpos _
  · apply List.ne_nil_of_mem
    apply List.mem_map.mpr
    exact ⟨_, hmem, rfl⟩

/-- Witness for C5 at a concrete instance over ℚ. -/
theorem diag_not_skipped_den_pos_witness :
    skip_block_fwd CausalLayout.normal 1 1 1 (0 / 1) (0 / 1) = false ∧
    0 < ((ring_scan (fun _ => (1 : ℚ)) 1 (-1) 1 1 1 CausalLayout.normal 1 1 Option.none
      true (0 : ℕ) (fun _ _ _ _ _ => false) 0
      (fun _ _ _ _ => 1) (fun _ _ _ _ => 1) (fun _ _ _ _ => 1)).carry 0 0 0 0).den := by
  have h := diag_not_skipped_den_pos (fun _ => (1 : ℚ)) (fun x y => by norm_num)
    (fun x => one_pos) 1 (-1) 1 1 1 CausalLayout.normal (Or.inl rfl) 1 1
    true (0 : ℕ) (fun _ _ _ _ _ => false) 0
    (fun _ _ _ _ => 1) (fun _ _ _ _ => 1) (fun _ _ _ _ => 1)
    Nat.one_pos Nat.one_pos Nat.one_pos Nat.one_pos dvd_rfl dvd_rfl
  exact ⟨h.1 0, h.2 0 0 0 0 Nat.one_pos Nat.one_pos⟩

/-! ### C3: the striped causal layout -/

theorem mod_block_add_lt (c L o i : ℕ) (_hc : 0 < c) (hL : 0 < L)
    (hcL : c ∣ L) (hco : c ∣ o) (hi : i < c) : o % L + i < L := by
  obtain ⟨u, rfl⟩ := hcL
  have hcm : c ∣ o % (c * u) := (Nat.dvd_mod_iff (dvd_mul_right c u)).mpr hco
  obtain ⟨w, hw⟩ := hcm
  have hlt : o % (c * u) < c * u := Nat.mod_lt o hL
  rw [hw] at hlt ⊢
  have hwu : w < u := Nat.lt_of_mul_lt_mul_left hlt
  have h2 : c * w + c ≤ c * u := by
    have h3 : w + 1 ≤ u := hwu
    calc c * w + c = c * (w + 1) := by ring
    _ ≤ c * u := Nat.mul_le_mul_left c h3
  omega

theorem tile_entry_mod (c L o i : ℕ) (hc : 0 < c) (hL : 0 < L)
    (hcL : c ∣ L) (hco : c ∣ o) (hi : i < c) : (o + i) % L = o % L + i := by
  have hb := mod_block_add_lt c L o i hc hL hcL hco hi
  conv_lhs => rw [show o + i = L * (o / L) + (o % L + i) by
    have := Nat.div_add_mod o L
    omega]
  rw [Nat.mul_add_mod, Nat.mod_eq_of_lt hb]

theorem tile_entry_div (c L o i : ℕ) (hc : 0 < c) (hL : 0 < L)
    (hcL : c ∣ L) (hco : c ∣ o) (hi : i < c) : (o + i) / L = o / L := by
  have hb := mod_block_add_lt c L o i hc hL hcL hco hi
  conv_lhs => rw [show o + i = L * (o / L) + (o % L + i) by
    have := Nat.div_add_mod o L
    omega]
  rw [Nat.mul_add_div hL, Nat.div_eq_of_lt hb, add_zero]

/-- The striped bias tile entry is `negMin` exactly when the attend
predicate `allowedStriped` fails (with no user bias and no dropout). -/
theorem chunk_bias_striped_entries {F : Type} [LinearOrderedField F]
    (query_chunk_size key_chunk_size L : ℕ)
    (deterministic : Bool) (attn_pdrop negMin : F)
    (qt kt b h i j : ℕ)
    (hq : 0 < query_chunk_size) (hk : 0 < key_chunk_size) (hL : 0 < L)
    (hqL : query_chunk_size ∣ L) (hkL : key_chunk_size ∣ L)
    (hi : i < query_chunk_size) (hj : j < key_chunk_size) :
    _chunk_attention_bias query_chunk_size key_chunk_size (some L) Option.none deterministic
        Option.none attn_pdrop CausalLayout.striped negMin qt kt b h i j
      = if allowedStriped L (qt * query_chunk_size + i) (kt * key_chunk_size + j)
        then 0 else negMin := by
  have hqm := tile_entry_mod query_chunk_size L (qt * query_chunk_size) i hq hL hqL
    (dvd_mul_left _ _) hi
  have hqd := tile_entry_div query_chunk_size L (qt * query_chunk_size) i hq hL hqL
    (dvd_mul_left _ _) hi
  have hkm := tile_entry_mod key_chunk_size L (kt * key_chunk_size) j hk hL hkL
    (dvd_mul_left _ _) hj
  have hkd := tile_entry_div key_chunk_size L (kt * key_chunk_size) j hk hL hkL
    (dvd_mul_left _ _) hj
  simp only [_chunk_attention_bias, allowedStriped, Option.getD_some, hqm, hqd, hkm, hkd,
    ite_self, zero_add, add_zero]
  split_ifs with h1 h2 h3 h4 h5 h6 <;>
    first
      | rfl
      | (exfalso
         simp only [decide_eq_true_eq] at *
         omega)

theorem lex_base (P a ab c cb : ℕ) (hab : ab < P) (hcb : cb < P) :
    (c * P + cb ≤ a * P + ab) ↔ (c < a ∨ (c = a ∧ cb ≤ ab)) := by
  constructor
  · intro h
    rcases Nat.lt_trichotomy c a with h1 | h1 | h1
    · exact Or.inl h1
    · subst h1
      exact Or.inr ⟨rfl, (add_le_add_iff_left (c * P)).mp h⟩
    · exfalso
      have h2 : (a + 1) * P ≤ c * P := Nat.mul_le_mul_right P h1
      have h5 : c * P + cb < c * P := by
        calc c * P + cb ≤ a * P + ab := h
        _ < a * P + P := Nat.add_lt_add_left hab _
        _ = (a + 1) * P := by ring
        _ ≤ c * P := h2
      exact absurd (lt_of_le_of_lt (Nat.le_add_right _ _) h5) (lt_irrefl _)
  · rintro (h1 | ⟨rfl, h2⟩)
    · apply Nat.le_of_lt
      have h2 : (c + 1) * P ≤ a * P := Nat.mul_le_mul_right P h1
      calc c * P + cb < c * P + P := Nat.add_lt_add_left hcb _
      _ = (c + 1) * P := by ring
      _ ≤ a * P := h2
      _ ≤ a * P + ab := Nat.le_add_right _ _
    · exact Nat.add_le_add_left h2 _

/-- The striped attend predicate at striped-global positions equals the
contiguous causal rule at the corresponding un-permuted positions. -/
theorem allowedStriped_eq_allowedNormal (P L : ℕ) (_hP : 0 < P) (hL : 0 < L)
    (s t : ℕ) (hs : s < P * L) (ht : t < P * L) :
    allowedStriped L s t
      = allowedNormal (s % L * P + s / L) (t % L * P + t / L) := by
  have hsP : s / L < P := (Nat.div_lt_iff_lt_mul hL).mpr hs
  have htP : t / L < P := (Nat.div_lt_iff_lt_mul hL).mpr ht
  have hlex := lex_base P (s % L) (s / L) (t % L) (t / L) hsP htP
  rw [allowedStriped, allowedNormal]
  by_cases h1 : s / L < t / L
  · rw [if_pos h1]
    apply decide_eq_decide.mpr
    rw [hlex]
    constructor
    · exact fun h => Or.inl h
    · rintro (h | ⟨heq, hle⟩)
      · exact h
      · exact absurd h1 (not_lt.mpr hle)
  · rw [if_neg h1]
    push_neg at h1
    apply decide_eq_decide.mpr
    rw [hlex]
    constructor
    · intro h
      rcases Nat.lt_or_ge (t % L) (s % L) with hlt | hge
      · exact Or.inl hlt
      · exact Or.inr ⟨Nat.le_antisymm hge h |>.symm, h1⟩
    · rintro (h | ⟨heq, -⟩)
      · exact Nat.le_of_lt h
      · exact Nat.le_of_eq heq

/-- Index arithmetic of the striped interleaving: for a position below
`P * L`, the stripe image `(p mod P) * L + p / P` is again below `P * L`
and splits back into the original quotient and remainder. -/
theorem stripe_pos_arith (P L p : ℕ) (hP : 0 < P) (hp : p < P * L) :
    (p % P * L + p / P) % L = p / P
    ∧ (p % P * L + p / P) / L = p % P
    ∧ p % P * L + p / P < P * L := by
  have hL : 0 < L := by
    rcases Nat.eq_zero_or_pos L with h0 | h0
    · subst h0
      simp at hp
    · exact h0
  have hdP : p / P < L := by
    apply (Nat.div_lt_iff_lt_mul hP).mpr
    calc p < P * L := hp
    _ = L * P := by ring
  have hmP : p % P < P := Nat.mod_lt p hP
  refine ⟨?_, ?_, ?_⟩
  · rw [mul_comm (p % P) L, Nat.mul_add_mod, Nat.mod_eq_of_lt hdP]
  · rw [mul_comm (p % P) L, Nat.mul_add_div hL, Nat.div_eq_of_lt hdP, add_zero]
  · have h2 : p % P + 1 ≤ P := hmP
    have h3 : (p % P + 1) * L ≤ P * L := Nat.mul_le_mul_right L h2
    have h4 : p % P * L + L = (p % P + 1) * L := by ring
    omega

/-- The minus-infinity idealization of the striped layout composed with the
token permutation equals the idealized contiguous layout: permute, run the
striped-masked attention, unpermute, and the contiguous rule on unpermuted
data gives the same output. -/
theorem ideal_striped_unpermute {F : Type} [LinearOrderedField F]
    (E : F → F) (scale : F) (D P L : ℕ) (hP : 0 < P) (hL : 0 < L)
    (q k v : Tensor4 F) (b qp h d : ℕ) (hqp : qp < P * L) :
    unpermute4 CausalLayout.striped
      (idealOut E scale D (P * L) (allowedStriped L)
        (permute4 CausalLayout.striped q (P * L) P)
        (permute4 CausalLayout.striped k (P * L) P)
        (permute4 CausalLayout.striped v (P * L) P)) (P * L) P b qp h d
    = idealOut E scale D (P * L) allowedNormal q k v b qp h d := by
  have hn : P * L / P = L := Nat.mul_div_cancel_left L hP
  obtain ⟨hsm, hsd, hsb⟩ := stripe_pos_arith P L qp hP hqp
  have hqp2 : qp < L * P := by
    calc qp < P * L := hqp
    _ = L * P := by ring
  have htau_s : (qp % P * L + qp / P) % L * P + (qp % P * L + qp / P) / L = qp := by
    rw [hsm, hsd, Nat.div_add_mod' qp P]
  have hallow : ∀ kp, kp < P * L →
      allowedStriped L (qp % P * L + qp / P) kp
        = allowedNormal qp (kp % L * P + kp / L) := by
    intro kp hkp
    rw [allowedStriped_eq_allowedNormal P L hP hL _ kp hsb hkp, htau_s]
  have hsum : ∀ f : ℕ → F,
      (∑ kp ∈ (Finset.range (P * L)).filter
          (fun kp => allowedStriped L (qp % P * L + qp / P) kp = true),
        f (kp % L * P + kp / L))
      = ∑ t ∈ (Finset.range (P * L)).filter (fun t => allowedNormal qp t = true), f t := by
    intro f
    refine Finset.sum_nbij' (fun kp => kp % L * P + kp / L) (fun t => t % P * L + t / P)
      ?_ ?_ ?_ ?_ ?_
    · intro kp hkp
      obtain ⟨hkr, hka⟩ := Finset.mem_filter.mp hkp
      have hkr2 := Finset.mem_range.mp hkr
      have hkr3 : kp < L * P := lt_of_lt_of_le hkr2 (le_of_eq (mul_comm P L))
      obtain ⟨-, -, hb⟩ := stripe_pos_arith L P kp hL hkr3
      apply Finset.mem_filter.mpr
      refine ⟨Finset.mem_range.mpr (lt_of_lt_of_le hb (le_of_eq (mul_comm L P))), ?_⟩
      rw [← hallow kp hkr2]
      exact hka
    · intro t htt
      obtain ⟨htr, hta⟩ := Finset.mem_filter.mp htt
      have htr2 := Finset.mem_range.mp htr
      obtain ⟨hm2, hd2, hb2⟩ := stripe_pos_arith P L t hP htr2
      apply Finset.mem_filter.mpr
      refine ⟨Finset.mem_range.mpr hb2, ?_⟩
      rw [hallow _ hb2, hm2, hd2, Nat.div_add_mod' t P]
      exact hta
    · intro kp hkp
      obtain ⟨hkr, -⟩ := Finset.mem_filter.mp hkp
      have hkr2 := Finset.mem_range.mp hkr
      have hkr3 : kp < L * P := lt_of_lt_of_le hkr2 (le_of_eq (mul_comm P L))
      obtain ⟨hm2, hd2, -⟩ := stripe_pos_arith L P kp hL hkr3
      simp only []
      rw [hm2, hd2, Nat.div_add_mod' kp L]
    · intro t htt
      obtain ⟨htr, -⟩ := Finset.mem_filter.mp htt
      have htr2 := Finset.mem_range.mp htr
      obtain ⟨hm2, hd2, -⟩ := stripe_pos_arith P L t hP htr2
      simp only []
      rw [hm2, hd2, Nat.div_add_mod' t P]
    · intro kp _
      rfl
  simp only [unpermute4, unpermute_outputs, idealOut, permute4, permute_tokens, hn]
  rw [htau_s, hsum (fun t => E ((∑ dd ∈ Finset.range D, q b qp h dd * k b t h dd) / scale)
      * v b t h d),
    hsum (fun t => E ((∑ dd ∈ Finset.range D, q b qp h dd * k b t h dd) / scale))]

/-- C3 counterexample: as an exact-arithmetic equality over the finite mask
penalty `negMin`, the claimed pipeline identity is false: with `P = 2`,
`L = 2`, unit chunks and the admissible exponential model `E = 1` over ℚ,
permuting, running the striped ring forward and unpermuting differs from the
contiguous ring forward on the unpermuted data at position 2, because the
two layouts tile-skip different fully-masked pairs while non-skipped masked
entries still carry weight `E(score + negMin) > 0`. -/
theorem striped_pipeline_counterexample :
    unpermute4 CausalLayout.striped
      (ring_attention_full (fun _ => (1 : ℚ)) 1 (-1) 1 2 2 CausalLayout.striped 1 1
        Option.none true (0 : ℕ) (fun _ _ _ _ _ => false) 0
        (permute4 CausalLayout.striped (fun _ _ _ _ => 0) 4 2)
        (permute4 CausalLayout.striped (fun _ _ _ _ => 0) 4 2)
        (permute4 CausalLayout.striped (fun _ p _ _ => (p : ℚ)) 4 2)) 4 2 0 2 0 0
      ≠ ring_attention_full (fun _ => (1 : ℚ)) 1 (-1) 1 2 2 CausalLayout.normal 1 1
        Option.none true (0 : ℕ) (fun _ _ _ _ _ => false) 0
        (fun _ _ _ _ => 0) (fun _ _ _ _ => 0) (fun _ p _ _ => (p : ℚ)) 0 2 0 0 := by
  norm_num [unpermute4, unpermute_outputs, ring_attention_full, ring_attention, ring_scan,
    ringStep, _blockwise_attention_fwd, rowScan, rowStep, carryOut, zeroCarry, omax,
    skip_block_fwd, _chunk_attention_bias, attn_dropout_of, kBlockIdx, permute4,
    permute_tokens, List.range_succ, Finset.sum_range_succ, Finset.sum_range_zero]

/-- C3 amended: the striped bias tile masks entry (i, j) exactly as the un
rotated, un-permuted sequence positions require (the offset being
`query_offset_in_block - key_offset_in_block - exclude_diagonal` with
`exclude_diagonal = (query_block_idx < key_block_idx)`); the query tile's
own ring block is never diagonal-excluded (same-block tiles use the plain
`k le q` in-block rule); skipped tiles are fully masked in both layouts; and
in the minus-infinity idealization of the mask (the float semantics in which
`exp(finfo.min + s)` underflows to zero) permuting, running striped
attention and unpermuting equals the contiguous layout run directly on the
unpermuted sequence. -/
theorem striped_layout_amended {F : Type} [LinearOrderedField F] (E : F → F)
    (scale negMin : F) (D P L : ℕ) (hP : 0 < P) (hL : 0 < L)
    (query_chunk_size key_chunk_size : ℕ)
    (hq : 0 < query_chunk_size) (hk : 0 < key_chunk_size)
    (hqL : query_chunk_size ∣ L) (hkL : key_chunk_size ∣ L)
    (deterministic : Bool) (attn_pdrop : F) :
    (∀ qt kt b h i j, i < query_chunk_size → j < key_chunk_size →
        qt * query_chunk_size + i < P * L → kt * key_chunk_size + j < P * L →
        _chunk_attention_bias query_chunk_size key_chunk_size (some L) Option.none
          deterministic Option.none attn_pdrop CausalLayout.striped negMin qt kt b h i j
        = if allowedNormal
              ((qt * query_chunk_size + i) % L * P + (qt * query_chunk_size + i) / L)
              ((kt * key_chunk_size + j) % L * P + (kt * key_chunk_size + j) / L)
          then 0 else negMin)
    ∧ (∀ qt kt b h i j, i < query_chunk_size → j < key_chunk_size →
        qt * query_chunk_size / L = kt * key_chunk_size / L →
        _chunk_attention_bias query_chunk_size key_chunk_size (some L) Option.none
          deterministic Option.none attn_pdrop CausalLayout.striped negMin qt kt b h i j
        = if (kt * key_chunk_size + j) % L ≤ (qt * query_chunk_size + i) % L
          then 0 else negMin)
    ∧ (∀ qt kt i j, i < query_chunk_size → j < key_chunk_size →
        (skip_block_fwd CausalLayout.striped query_chunk_size key_chunk_size L qt kt = true →
          allowedStriped L (qt * query_chunk_size + i) (kt * key_chunk_size + j) = false)
        ∧ (skip_block_fwd CausalLayout.normal query_chunk_size key_chunk_size L qt kt = true →
          allowedNormal (qt * query_chunk_size + i) (kt * key_chunk_size + j) = false))
    ∧ (∀ (q k v : Tensor4 F) b qp h d, qp < P * L →
        unpermute4 CausalLayout.striped
          (idealOut E scale D (P * L) (allowedStriped L)
            (permute4 CausalLayout.striped q (P * L) P)
            (permute4 CausalLayout.striped k (P * L) P)
            (permute4 CausalLayout.striped v (P * L) P)) (P * L) P b qp h d
        = idealOut E scale D (P * L) allowedNormal q k v b qp h d) := by
  refine ⟨?_, ?_, ?_, ?_⟩
  · intro qt kt b h i j hi hj hqin hkin
    rw [chunk_bias_striped_entries query_chunk_size key_chunk_size L deterministic
      attn_pdrop negMin qt kt b h i j hq hk hL hqL hkL hi hj]
    rw [allowedStriped_eq_allowedNormal P L hP hL _ _ hqin hkin]
  · intro qt kt b h i j hi hj hblocks
    rw [chunk_bias_striped_entries query_chunk_size key_chunk_size L deterministic
      attn_pdrop negMin qt kt b h i j hq hk hL hqL hkL hi hj]
    have hqd := tile_entry_div query_chunk_size L (qt * query_chunk_size) i hq hL hqL
      (dvd_mul_left _ _) hi
    have hkd := tile_entry_div key_chunk_size L (kt * key_chunk_size) j hk hL hkL
      (dvd_mul_left _ _) hj
    rw [allowedStriped, hqd, hkd, hblocks, if_neg (lt_irrefl _)]
    simp only [decide_eq_true_eq]
  · intro qt kt i j hi hj
    have hqm := tile_entry_mod query_chunk_size L (qt * query_chunk_size) i hq hL hqL
      (dvd_mul_left _ _) hi
    have hkm := tile_entry_mod key_chunk_size L (kt * key_chunk_size) j hk hL hkL
      (dvd_mul_left _ _) hj
    constructor
    · intro hskip
      simp only [skip_block_fwd, decide_eq_true_eq] at hskip
      have hlt : (qt * query_chunk_size + i) % L < (kt * key_chunk_size + j) % L := by
        rw [hqm, hkm]
        omega
      rw [allowedStriped]
      split_ifs with hbr <;>
        simp only [decide_eq_false_iff_not] <;>
        omega
    · intro hskip
      simp only [skip_block_fwd, decide_eq_true_eq] at hskip
      rw [allowedNormal]
      simp only [decide_eq_false_iff_not]
      omega
  · intro q k v b qp h d hqp
    exact ideal_striped_unpermute E scale D P L hP hL q k v b qp h d hqp

/-- Witness for C3 amended at a concrete instance over ℚ. -/
theorem striped_layout_amended_witness :
    (0 < 2 ∧ 0 < 1 ∧ (1 : ℕ) ∣ 2 ∧ (0 * 1 + 0 < 2 * 2) ∧ (1 * 1 + 0 < 2 * 2)) ∧
    _chunk_attention_bias 1 1 (some 2) Option.none true Option.none (0 : ℚ)
        CausalLayout.striped (-1) 0 1 0 0 0 0
      = if allowedNormal ((0 * 1 + 0) % 2 * 2 + (0 * 1 + 0) / 2)
            ((1 * 1 + 0) % 2 * 2 + (1 * 1 + 0) / 2) then 0 else (-1 : ℚ) :=
  ⟨⟨Nat.zero_lt_two, Nat.one_pos, ⟨2, rfl⟩, by decide, by decide⟩,
   (striped_layout_amended (fun _ => (1 : ℚ)) 1 (-1) 1 2 2 Nat.zero_lt_two
     Nat.zero_lt_two 1 1 Nat.one_pos Nat.one_pos ⟨2, rfl⟩ ⟨2, rfl⟩ true 0).1
     0 1 0 0 0 0 Nat.one_pos Nat.one_pos (by decide) (by decide)⟩

end BPT
